import Mathlib

/-!
Shallow embedding of `src/logicgate/graph.py` (`DependencyGraph`) and the
parts of `src/logicgate/models.py` it consumes.

Modelling conventions:
* Python dicts whose iteration order is never observed by the code are
  modelled as association lists (`Dict α`) with Python-dict update
  semantics: overwriting an existing key keeps its position, a fresh key
  is appended at the end.
* The external parser (`TreeSitterParser`) is out of scope per the spec;
  `build_graph`'s directory walk plus per-file parsing is modelled as a
  list of `FileFacts`, one entry per walked source file in walk order.
* The filesystem probed by `Path.is_file` is modelled as the list `fs` of
  existing file paths (absolute, slash-separated strings).
* `Path` values are modelled as lists of path components of an absolute
  path; `Path.resolve()` is modelled as lexical normalization (no
  symlinks, absolute inputs).
* `networkx.DiGraph` is modelled by `DiGraph` below; `nx.bfs_edges` with
  a `depth_limit` follows the level-synchronized semantics of current
  networkx (≥ 3.3): `depth_limit = 0` explores no edges.
* Python `set` iteration order is unspecified; where the code iterates a
  set (`get_slice`'s `reachable`), we model insertion (BFS discovery)
  order and only prove order-insensitive facts about the result.
* The one uncaught exception the code can raise — `Path.with_suffix`'s
  `ValueError` when a relative import specifier resolves to the
  filesystem root (e.g. `require('..')` from a file one directory below
  root), raised eagerly while `_resolve_import_path` builds its probe
  list — is modelled by the `PyResult` layer (`resolveImportPathE`,
  `buildGraphE`, `getRouteContextE`, …).  The plain functions are the
  projections onto non-raising runs; the `…_ok` agreement theorems
  (`resolveImportPathE_ok`, `buildGraphE_ok`, `getRouteContextE_ok`)
  prove the two layers agree whenever no exception occurs.
-/

namespace LogicGate

/-- Model of `models.FunctionDef`: a named function definition. -/
structure FunctionDef where
  name : String
  file_path : String
  start_line : Nat
  end_line : Nat
  source : String
deriving DecidableEq, Repr

/-- Model of `models.FunctionCall`: a call site. -/
structure FunctionCall where
  name : String
  file_path : String
  line : Nat
  object_name : Option String := none
deriving DecidableEq, Repr

/-- Model of `models.ImportInfo`: a `require()` / `import` binding. -/
structure ImportInfo where
  name : String
  path : String
  file_path : String
  line : Nat
deriving DecidableEq, Repr

/-- Model of `models.RouteInfo`: an Express route (entry point). -/
structure RouteInfo where
  file_path : String
  http_method : String
  route_pattern : String
  handler_start_line : Nat
  handler_end_line : Nat
  handler_source : String
  middleware : List String := []
deriving DecidableEq, Repr

/-- Association list modelling a Python `dict` keyed by strings. -/
abbrev Dict (α : Type) := List (String × α)

/-- Python dict assignment `d[k] = v`: overwrite in place, else append. -/
def dictInsert {α : Type} : Dict α → String → α → Dict α
  | [], k, v => [(k, v)]
  | (k', v') :: rest, k, v =>
      if k' = k then (k, v) :: rest else (k', v') :: dictInsert rest k v

/-- Python `d.get(k)` / `k in d` probe. -/
def dictGet {α : Type} : Dict α → String → Option α
  | [], _ => none
  | (k', v) :: rest, k => if k' = k then some v else dictGet rest k

/-- Python `d.get(k, default)`. -/
def dictGetD {α : Type} (d : Dict α) (k : String) (dflt : α) : α :=
  (dictGet d k).getD dflt

/-- Python `k in d`. -/
def dictMem {α : Type} (d : Dict α) (k : String) : Bool :=
  (dictGet d k).isSome

/-- Node identifier wire format: `f"{file_path}:{name}"`. -/
def nodeId (path name : String) : String := path ++ ":" ++ name

/-! ### Path model (`pathlib.Path` operations used by the code) -/

/-- Structural model of `str.split("/")` (same component list as
Python's split on a single slash). -/
def splitSlash (s : String) : List String :=
  (s.toList.foldr
    (fun c (acc : List String × List Char) =>
      if c = '/' then (acc.2.asString :: acc.1, [])
      else (acc.1, c :: acc.2))
    ([], [])).2.asString ::
  (s.toList.foldr
    (fun c (acc : List String × List Char) =>
      if c = '/' then (acc.2.asString :: acc.1, [])
      else (acc.1, c :: acc.2))
    ([], [])).1

/-- First character is a dot (`str.startswith(".")`). -/
def startsWithDot (s : String) : Bool :=
  s.toList.head? == some '.'

/-- Components of an absolute path string (splitting on `/`). -/
def pathComponents (s : String) : List String :=
  (splitSlash s).filter (fun c => c ≠ "")

/-- Render components back to an absolute path string (`str(path)`). -/
def renderPath (comps : List String) : String :=
  "/" ++ String.intercalate "/" comps

/-- Lexical normalization performed by `Path.resolve()` on an absolute
path: drop `.` and empty components, `..` pops the previous component. -/
def normalizeComponents (comps : List String) : List String :=
  comps.foldl
    (fun acc c =>
      if c = "" ∨ c = "." then acc
      else if c = ".." then acc.dropLast
      else acc ++ [c])
    []

/-- Python `str.rfind(".")` on a name: the last index holding a dot. -/
def lastDotIdx (cs : List Char) : Option Nat :=
  ((List.range cs.length).filter
    (fun i => (cs.drop i).head? == some '.')).getLast?

/-- Python `PurePath.suffix` of one name component: the substring from the
last dot, provided that dot is neither the first nor the last character. -/
def nameSuffixLen (name : String) : Nat :=
  match lastDotIdx name.toList with
  | some i =>
      if 0 < i ∧ i + 1 < name.toList.length then name.toList.length - i
      else 0
  | none => 0

/-- Python `Path.with_suffix(ext)` applied to the last component: strip
the existing suffix (if any) and append `ext`.  Python raises
`ValueError` when the path has no final component — reachable, e.g.
`require('..')` from a file one directory below root resolves the
candidate to `/`.  This total function returns such a path unchanged and
is only ever relied on for non-raising runs: `pyProbe` /
`resolveImportPathE` model the raise itself, and `resolveImportPathE_ok`
proves the two layers agree whenever no exception is raised. -/
def withSuffix (comps : List String) (ext : String) : List String :=
  match comps.getLast? with
  | none => comps
  | some c =>
      comps.dropLast ++
        [(c.toList.take (c.toList.length - nameSuffixLen c)).asString ++ ext]

/-! ### `networkx.DiGraph` model -/

/-- The slice of `networkx.DiGraph` used by the code: nodes carry an
optional `data` attribute (`add_edge` creates attribute-less endpoints),
edges are kept in insertion order without duplicates. -/
structure DiGraph where
  nodes : Dict (Option FunctionDef)
  edges : List (String × String)
deriving DecidableEq, Repr

def DiGraph.empty : DiGraph := ⟨[], []⟩

/-- Membership test `node_id in self.graph`. -/
def DiGraph.hasNode (g : DiGraph) (n : String) : Bool :=
  dictMem g.nodes n

/-- Model of `self.graph.add_node(node_id, data=fdef)`. -/
def DiGraph.addNode (g : DiGraph) (n : String) (d : FunctionDef) : DiGraph :=
  { g with nodes := dictInsert g.nodes n (some d) }

/-- Ensure a node exists (as `add_edge` does for missing endpoints). -/
def DiGraph.touchNode (g : DiGraph) (n : String) : Dict (Option FunctionDef) :=
  if (dictGet g.nodes n).isSome then g.nodes else g.nodes ++ [(n, none)]

/-- Model of `self.graph.add_edge(u, v)`: creates missing endpoints, idempotent on
the edge set, keeps first insertion position. -/
def DiGraph.addEdge (g : DiGraph) (u v : String) : DiGraph :=
  let nodes1 := g.touchNode u
  let g1 : DiGraph := ⟨nodes1, g.edges⟩
  let nodes2 := g1.touchNode v
  let edges := if (u, v) ∈ g.edges then g.edges else g.edges ++ [(u, v)]
  ⟨nodes2, edges⟩

/-- Successors of `u` in adjacency (edge-insertion) order. -/
def DiGraph.succ (g : DiGraph) (u : String) : List String :=
  g.edges.filterMap (fun e => if e.1 = u then some e.2 else none)

/-! ### `DependencyGraph` state and build -/

/-- The mutable state of a `DependencyGraph` instance (the parser handle
carries no state relevant to the claims and is omitted). -/
structure DependencyGraph where
  graph : DiGraph
  file_functions : Dict (List FunctionDef)
  file_calls : Dict (List FunctionCall)
  file_imports : Dict (List ImportInfo)
  symbol_table : Dict FunctionDef
deriving DecidableEq, Repr

/-- Model of `DependencyGraph.__init__`: everything empty. -/
def DependencyGraph.init : DependencyGraph :=
  ⟨DiGraph.empty, [], [], [], []⟩

/-- Facts the parser extracts from one walked source file. -/
structure FileFacts where
  path : String
  defs : List FunctionDef
  calls : List FunctionCall
  imports : List ImportInfo
deriving DecidableEq, Repr

/-- Register one definition of the file at `fpath` (phase-1 inner loop
body of `build_graph`). -/
def registerDef (fpath : String) (g : DependencyGraph)
    (fdef : FunctionDef) : DependencyGraph :=
  { g with
    symbol_table := dictInsert g.symbol_table (nodeId fpath fdef.name) fdef
    graph := g.graph.addNode (nodeId fpath fdef.name) fdef }

/-- The phase-1 body of `build_graph` for one file: store the parsed
facts and register every definition as a symbol-table entry and node. -/
def registerFile (g : DependencyGraph) (f : FileFacts) : DependencyGraph :=
  f.defs.foldl (registerDef f.path)
    { g with
      file_functions := dictInsert g.file_functions f.path f.defs
      file_calls := dictInsert g.file_calls f.path f.calls
      file_imports := dictInsert g.file_imports f.path f.imports }

/-- Model of `DependencyGraph._resolve_import_path` restricted to
non-raising runs: resolve a relative import specifier against the
directory of the importing file, probing the literal path, `.js`/`.ts`
via `with_suffix`, then `index.js`/`index.ts`.  The source builds its probe
list eagerly, so `with_suffix` raises `ValueError` on a root candidate
before any `is_file` check: `resolveImportPathE` models that raise, and
`resolveImportPathE_ok` proves agreement on every non-raising run. -/
def resolveImportPath (fs : List String) (currentFile : String)
    (importPath : String) : Option String :=
  if ¬ startsWithDot importPath then none
  else
    let baseDir := (pathComponents currentFile).dropLast
    let candidate := normalizeComponents (baseDir ++ splitSlash importPath)
    let probes := [candidate, withSuffix candidate ".js", withSuffix candidate ".ts",
                   candidate ++ ["index.js"], candidate ++ ["index.ts"]]
    (probes.find? (fun p => renderPath p ∈ fs)).map renderPath

/-- Loop body of `DependencyGraph._resolve_call_via_imports` over
the import list of the calling file. -/
def resolveImportsList (fs : List String) (symtab : Dict FunctionDef)
    (filePath callName : String) : List ImportInfo → Option String
  | [] => none
  | imp :: rest =>
      if imp.name = callName then
        match resolveImportPath fs filePath imp.path with
        | some resolvedPath =>
            let candidateId := nodeId resolvedPath callName
            if dictMem symtab candidateId then some candidateId
            else resolveImportsList fs symtab filePath callName rest
        | none => resolveImportsList fs symtab filePath callName rest
      else resolveImportsList fs symtab filePath callName rest

/-- Model of `DependencyGraph._resolve_call_via_imports`. -/
def resolveCallViaImports (fs : List String) (g : DependencyGraph)
    (filePath callName : String) : Option String :=
  resolveImportsList fs g.symbol_table filePath callName
    (dictGetD g.file_imports filePath [])

/-- Loop body of `DependencyGraph._find_enclosing_function`: keep the
containing definition with the strictly smallest span (ties keep the
earlier one). -/
def enclosingStep (line : Nat) (best : Option FunctionDef)
    (fdef : FunctionDef) : Option FunctionDef :=
  if fdef.start_line ≤ line ∧ line ≤ fdef.end_line then
    match best with
    | none => some fdef
    | some b =>
        if fdef.end_line - fdef.start_line < b.end_line - b.start_line
        then some fdef else some b
  else best

/-- The scan of `DependencyGraph._find_enclosing_function` over the
file's definitions. -/
def findEnclosing (defs : List FunctionDef) (line : Nat) : Option FunctionDef :=
  defs.foldl (enclosingStep line) none

/-- Model of `DependencyGraph._find_enclosing_function`. -/
def findEnclosingFunction (g : DependencyGraph) (filePath : String)
    (line : Nat) : Option String :=
  (findEnclosing (dictGetD g.file_functions filePath []) line).map
    (fun b => b.name)

/-- One iteration of the loop in `DependencyGraph._resolve_calls`. -/
def resolveCall (fs : List String) (g : DependencyGraph) (filePath : String)
    (call : FunctionCall) : DependencyGraph :=
  match findEnclosingFunction g filePath call.line with
  | none => g
  | some callerName =>
      if callerName = "" then g
      else
        let callerId := nodeId filePath callerName
        if (dictGetD g.file_functions filePath []).any
            (fun d => d.name = call.name) then
          let calleeId := nodeId filePath call.name
          if g.graph.hasNode callerId ∧ g.graph.hasNode calleeId then
            { g with graph := g.graph.addEdge callerId calleeId }
          else g
        else
          match resolveCallViaImports fs g filePath call.name with
          | some resolved =>
              if g.graph.hasNode callerId then
                { g with graph := g.graph.addEdge callerId resolved }
              else g
          | none => g

/-- Model of `DependencyGraph._resolve_calls`. -/
def resolveCalls (fs : List String) (g : DependencyGraph) (filePath : String)
    (calls : List FunctionCall) : DependencyGraph :=
  calls.foldl (fun g c => resolveCall fs g filePath c) g

/-- Phase 1 of `build_graph`: store facts and register nodes per file. -/
def buildPhase1 (g : DependencyGraph) (files : List FileFacts) : DependencyGraph :=
  files.foldl registerFile g

/-- Phase 2 of `build_graph`: `for file_path, calls in self._file_calls.items()`. -/
def buildPhase2 (fs : List String) (g : DependencyGraph) : DependencyGraph :=
  g.file_calls.foldl (fun g pc => resolveCalls fs g pc.1 pc.2) g

/-- Model of `DependencyGraph.build_graph`: note that it mutates the receiver
state in place and never clears it. -/
def buildGraph (fs : List String) (g : DependencyGraph)
    (files : List FileFacts) : DependencyGraph :=
  buildPhase2 fs (buildPhase1 g files)

/-! ### Reachability slicer (`get_slice` via `nx.bfs_edges`) -/

/-- Visit one BFS child: append it to the seen list and the next
frontier unless it was already seen. -/
def seenStep (acc : List String × List String) (child : String) :
    List String × List String :=
  if child ∈ acc.1 then acc else (acc.1 ++ [child], acc.2 ++ [child])

/-- One BFS level of `networkx` `generic_bfs_edges`: expand every parent
of the frontier in order, appending unseen children to `seen` and to the
next frontier. -/
def bfsExpand (adj : String → List String) (frontier seen : List String) :
    List String × List String :=
  frontier.foldl
    (fun acc parent => (adj parent).foldl seenStep acc)
    (seen, [])

/-- Level-synchronized BFS of `networkx` (≥ 3.3) `generic_bfs_edges`:
run at most `depth` levels, stopping early when the frontier empties;
returns the `seen` list in discovery order. -/
def bfsSeen (adj : String → List String) :
    Nat → List String → List String → List String
  | 0, _, seen => seen
  | _ + 1, [], seen => seen
  | d + 1, p :: frontier, seen =>
      let acc := bfsExpand adj (p :: frontier) seen
      bfsSeen adj d acc.2 acc.1

/-- The `reachable` set of `get_slice` (modelled in discovery order):
the start node plus every `v` yielded by
`nx.bfs_edges(graph, node_id, depth_limit=depth)`. -/
def sliceIds (g : DependencyGraph) (node_id : String) (depth : Nat) :
    List String :=
  bfsSeen (g.graph.succ) depth [node_id] [node_id]

/-- Model of `DependencyGraph.get_slice` with an explicit depth. -/
def getSlice (g : DependencyGraph) (node_id : String) (depth : Nat) :
    List FunctionDef :=
  if ¬ g.graph.hasNode node_id then []
  else
    (sliceIds g node_id depth).filterMap
      (fun nid => (dictGet g.graph.nodes nid).bind (fun d => d))

/-- Model of `DependencyGraph.get_slice` with the `depth` argument omitted
(Python default `depth: int = 5`). -/
def getSliceDefault (g : DependencyGraph) (node_id : String) :
    List FunctionDef :=
  getSlice g node_id 5

/-! ### Context assembler (`get_route_context`) -/

/-- The call sites of the route's file whose line falls inside the
handler's inclusive line range. -/
def callsInHandler (g : DependencyGraph) (route : RouteInfo) :
    List FunctionCall :=
  (dictGetD g.file_calls route.file_path []).filter
    (fun c => route.handler_start_line ≤ c.line ∧
              c.line ≤ route.handler_end_line)

/-- Candidate resolution used by `get_route_context`: same-file
symbol-table lookup first, then import-based resolution. -/
def resolveCandidate (fs : List String) (g : DependencyGraph)
    (filePath callName : String) : Option String :=
  let candidateId := nodeId filePath callName
  if dictMem g.symbol_table candidateId then some candidateId
  else resolveCallViaImports fs g filePath callName

/-- Inner loop of `get_route_context`: append each slice member whose
node id is unseen, tracking the seen-id set alongside the collected
definitions. -/
def collectSliceDefs (sliceDefs : List FunctionDef)
    (acc : List String × List FunctionDef) :
    List String × List FunctionDef :=
  sliceDefs.foldl
    (fun acc fdef =>
      let nid := nodeId fdef.file_path fdef.name
      if nid ∈ acc.1 then acc
      else (acc.1 ++ [nid], acc.2 ++ [fdef]))
    acc

/-- Per-call step of `get_route_context`'s accumulation loop: resolve the
call (same file first, then imports); a resolved candidate already in the
seen set is skipped, otherwise its whole slice is collected. -/
def routeStep (fs : List String) (g : DependencyGraph) (filePath : String)
    (depth : Nat) (acc : List String × List FunctionDef)
    (call : FunctionCall) : List String × List FunctionDef :=
  match resolveCandidate fs g filePath call.name with
  | some cid =>
      if cid ∈ acc.1 then acc
      else collectSliceDefs (getSlice g cid depth) acc
  | none => acc

/-- The `all_defs` list assembled by `get_route_context` before
rendering. -/
def routeContextDefs (fs : List String) (g : DependencyGraph)
    (route : RouteInfo) (depth : Nat) : List FunctionDef :=
  ((callsInHandler g route).foldl
    (routeStep fs g route.file_path depth) ([], [])).2

/-- One rendered block: header line plus source text. -/
def renderBlock (filePath : String) (startLine endLine : Nat)
    (src : String) : String :=
  "// File: " ++ filePath ++ ", Lines " ++ toString startLine ++ "-" ++
    toString endLine ++ "\n" ++ src

/-- Model of `DependencyGraph.get_route_context` with an explicit depth. -/
def getRouteContext (fs : List String) (g : DependencyGraph)
    (route : RouteInfo) (depth : Nat) : String :=
  let allDefs := routeContextDefs fs g route depth
  if allDefs = [] then
    renderBlock route.file_path route.handler_start_line
      route.handler_end_line route.handler_source ++ "\n"
  else
    String.intercalate "\n\n"
      (allDefs.map (fun fdef =>
        renderBlock fdef.file_path fdef.start_line fdef.end_line fdef.source))
      ++ "\n"

/-- Model of `DependencyGraph.get_route_context` with the `depth` argument omitted
(Python default `depth: int = 5`). -/
def getRouteContextDefault (fs : List String) (g : DependencyGraph)
    (route : RouteInfo) : String :=
  getRouteContext fs g route 5

/-! ### Exception-aware layer

`Path.with_suffix` raises `ValueError` when its receiver has no final
component.  `_resolve_import_path` hits exactly that case when the
normalized candidate is the filesystem root (e.g. the specifier `..` in
a file one directory below root), and it does so eagerly, while building
the probe list, before any `is_file` check.  The functions below re-run
the model with that exception propagated; the plain functions above are
their projections onto non-raising runs (see the `…_ok` agreement
theorems). -/

/-- Result of running a piece of Python that may raise: a value, or a
propagated uncaught exception. -/
inductive PyResult (α : Type) : Type
  | ok : α → PyResult α
  | exn : PyResult α
deriving DecidableEq, Repr

/-- Left fold with early exit on a raised exception. -/
def foldPy {α β : Type} (step : α → β → PyResult α) :
    List β → α → PyResult α
  | [], a => PyResult.ok a
  | b :: bs, a =>
      match step a b with
      | PyResult.exn => PyResult.exn
      | PyResult.ok a1 => foldPy step bs a1

/-- Probe construction and lookup of `_resolve_import_path`: Python
builds the probe list eagerly, so `with_suffix` raises `ValueError` on a
candidate with no final component (the root, i.e. the empty component
list) before any probe is checked for existence. -/
def pyProbe (fs : List String) (candidate : List String) :
    PyResult (Option String) :=
  if candidate = [] then PyResult.exn
  else
    PyResult.ok
      (([candidate, withSuffix candidate ".js", withSuffix candidate ".ts",
         candidate ++ ["index.js"], candidate ++ ["index.ts"]].find?
          (fun p => renderPath p ∈ fs)).map renderPath)

/-- Exception-aware model of `DependencyGraph._resolve_import_path`. -/
def resolveImportPathE (fs : List String) (currentFile : String)
    (importPath : String) : PyResult (Option String) :=
  if ¬ startsWithDot importPath then PyResult.ok none
  else
    pyProbe fs
      (normalizeComponents
        ((pathComponents currentFile).dropLast ++ splitSlash importPath))

/-- Exception-aware loop of `_resolve_call_via_imports` over the import
list of the calling file. -/
def resolveImportsListE (fs : List String) (symtab : Dict FunctionDef)
    (filePath callName : String) : List ImportInfo → PyResult (Option String)
  | [] => PyResult.ok none
  | imp :: rest =>
      if imp.name = callName then
        match resolveImportPathE fs filePath imp.path with
        | PyResult.exn => PyResult.exn
        | PyResult.ok (some resolvedPath) =>
            if dictMem symtab (nodeId resolvedPath callName) then
              PyResult.ok (some (nodeId resolvedPath callName))
            else resolveImportsListE fs symtab filePath callName rest
        | PyResult.ok none =>
            resolveImportsListE fs symtab filePath callName rest
      else resolveImportsListE fs symtab filePath callName rest

/-- Exception-aware model of `_resolve_call_via_imports`. -/
def resolveCallViaImportsE (fs : List String) (g : DependencyGraph)
    (filePath callName : String) : PyResult (Option String) :=
  resolveImportsListE fs g.symbol_table filePath callName
    (dictGetD g.file_imports filePath [])

/-- Exception-aware model of one iteration of the loop in
`_resolve_calls`. -/
def resolveCallE (fs : List String) (g : DependencyGraph) (filePath : String)
    (call : FunctionCall) : PyResult DependencyGraph :=
  match findEnclosingFunction g filePath call.line with
  | none => PyResult.ok g
  | some callerName =>
      if callerName = "" then PyResult.ok g
      else
        if (dictGetD g.file_functions filePath []).any
            (fun d => d.name = call.name) then
          PyResult.ok
            (if g.graph.hasNode (nodeId filePath callerName) ∧
                g.graph.hasNode (nodeId filePath call.name) then
              { g with
                graph := g.graph.addEdge (nodeId filePath callerName)
                  (nodeId filePath call.name) }
            else g)
        else
          match resolveCallViaImportsE fs g filePath call.name with
          | PyResult.exn => PyResult.exn
          | PyResult.ok (some resolved) =>
              PyResult.ok
                (if g.graph.hasNode (nodeId filePath callerName) then
                  { g with
                    graph := g.graph.addEdge (nodeId filePath callerName)
                      resolved }
                else g)
          | PyResult.ok none => PyResult.ok g

/-- Exception-aware model of `_resolve_calls`. -/
def resolveCallsE (fs : List String) (g : DependencyGraph) (filePath : String)
    (calls : List FunctionCall) : PyResult DependencyGraph :=
  foldPy (fun g c => resolveCallE fs g filePath c) calls g

/-- Exception-aware phase 2 of `build_graph`. -/
def buildPhase2E (fs : List String) (g : DependencyGraph) :
    PyResult DependencyGraph :=
  foldPy (fun g pc => resolveCallsE fs g pc.1 pc.2) g.file_calls g

/-- Exception-aware model of `build_graph` (phase 1 cannot raise). -/
def buildGraphE (fs : List String) (g : DependencyGraph)
    (files : List FileFacts) : PyResult DependencyGraph :=
  buildPhase2E fs (buildPhase1 g files)

/-- Exception-aware candidate resolution of `get_route_context`: a
same-file symbol-table hit returns before any import is probed. -/
def resolveCandidateE (fs : List String) (g : DependencyGraph)
    (filePath callName : String) : PyResult (Option String) :=
  if dictMem g.symbol_table (nodeId filePath callName) then
    PyResult.ok (some (nodeId filePath callName))
  else resolveCallViaImportsE fs g filePath callName

/-- Exception-aware per-call step of `get_route_context`'s accumulation
loop. -/
def routeStepE (fs : List String) (g : DependencyGraph) (filePath : String)
    (depth : Nat) (acc : List String × List FunctionDef)
    (call : FunctionCall) : PyResult (List String × List FunctionDef) :=
  match resolveCandidateE fs g filePath call.name with
  | PyResult.exn => PyResult.exn
  | PyResult.ok (some cid) =>
      PyResult.ok
        (if cid ∈ acc.1 then acc
         else collectSliceDefs (getSlice g cid depth) acc)
  | PyResult.ok none => PyResult.ok acc

/-- Exception-aware `all_defs` assembly of `get_route_context`. -/
def routeContextDefsE (fs : List String) (g : DependencyGraph)
    (route : RouteInfo) (depth : Nat) : PyResult (List FunctionDef) :=
  match foldPy (routeStepE fs g route.file_path depth)
      (callsInHandler g route) ([], []) with
  | PyResult.exn => PyResult.exn
  | PyResult.ok acc => PyResult.ok acc.2

/-- Exception-aware model of `get_route_context`. -/
def getRouteContextE (fs : List String) (g : DependencyGraph)
    (route : RouteInfo) (depth : Nat) : PyResult String :=
  match routeContextDefsE fs g route depth with
  | PyResult.exn => PyResult.exn
  | PyResult.ok allDefs =>
      PyResult.ok
        (if allDefs = [] then
          renderBlock route.file_path route.handler_start_line
            route.handler_end_line route.handler_source ++ "\n"
        else
          String.intercalate "\n\n"
            (allDefs.map (fun fdef =>
              renderBlock fdef.file_path fdef.start_line fdef.end_line
                fdef.source))
            ++ "\n")

/-! ### Concrete states and spec-level definitions used by the theorems -/

/-- Concrete witness state for the slice claims: one file defining `f`. -/
def defF : FunctionDef := ⟨"f", "/w/a.js", 1, 2, "function f(){}"⟩

/-- Witness graph: `buildGraph` over a single file defining `f`. -/
def gWitness : DependencyGraph :=
  buildGraph [] DependencyGraph.init [⟨"/w/a.js", [defF], [], []⟩]

/-- The mutually recursive pair used for the cyclic-slice claim. -/
def cycleDefA : FunctionDef := ⟨"A", "/w/c.js", 1, 5, "function A(){B()}"⟩

def cycleDefB : FunctionDef := ⟨"B", "/w/c.js", 6, 10, "function B(){A()}"⟩

/-- Graph built from one file whose functions `A` and `B` call each
other: edges `A→B` and `B→A`. -/
def cycleGraph : DependencyGraph :=
  buildGraph [] DependencyGraph.init
    [⟨"/w/c.js", [cycleDefA, cycleDefB],
      [⟨"B", "/w/c.js", 2, none⟩, ⟨"A", "/w/c.js", 7, none⟩], []⟩]

/-- The inclusive containment test of `_find_enclosing_function`. -/
def containsLine (d : FunctionDef) (line : Nat) : Prop :=
  d.start_line ≤ line ∧ line ≤ d.end_line

instance (d : FunctionDef) (line : Nat) : Decidable (containsLine d line) := by
  unfold containsLine; infer_instance

/-- The span used to pick the innermost scope. -/
def spanOf (d : FunctionDef) : Nat := d.end_line - d.start_line

/-- Witness for C9: a nested pair of definitions where the inner one
(smaller span) wins at line 5. -/
def outerDef : FunctionDef := ⟨"outer", "/w/n.js", 1, 10, "function outer(){}"⟩

def innerDef : FunctionDef := ⟨"inner", "/w/n.js", 4, 6, "function inner(){}"⟩

def nestedGraph : DependencyGraph :=
  buildPhase1 DependencyGraph.init [⟨"/w/n.js", [outerDef, innerDef], [], []⟩]

/-- Substring containment (verbatim occurrence). -/
def containsStr (s sub : String) : Prop := ∃ a b, s = a ++ sub ++ b

/-- A route on the witness file whose handler range contains no call
sites at all. -/
def emptyRoute : RouteInfo := ⟨"/w/a.js", "GET", "/", 20, 30, "res.send(1)", []⟩

/-- Nothing already present is ever dropped: node keys, edges, symbol
keys and per-file fact-store keys only grow. -/
def StateLe (g1 g2 : DependencyGraph) : Prop :=
  (∀ n, (dictGet g1.graph.nodes n).isSome →
      (dictGet g2.graph.nodes n).isSome) ∧
  (∀ e, e ∈ g1.graph.edges → e ∈ g2.graph.edges) ∧
  (∀ k, (dictGet g1.symbol_table k).isSome →
      (dictGet g2.symbol_table k).isSome) ∧
  (∀ k, (dictGet g1.file_functions k).isSome →
      (dictGet g2.file_functions k).isSome) ∧
  (∀ k, (dictGet g1.file_calls k).isSome →
      (dictGet g2.file_calls k).isSome) ∧
  (∀ k, (dictGet g1.file_imports k).isSome →
      (dictGet g2.file_imports k).isSome)

/-- Invariant of the build: the graph's node store is exactly the symbol
table with every payload wrapped in `some` (phase 1 adds both together,
and phase 2 never creates nodes). -/
def Mirror (g : DependencyGraph) : Prop :=
  g.graph.nodes = g.symbol_table.map (fun p => (p.1, some p.2))

/-- All edge endpoints are symbol-table keys. -/
def EdgesOk (g : DependencyGraph) : Prop :=
  ∀ e ∈ g.graph.edges, (dictGet g.symbol_table e.1).isSome ∧
    (dictGet g.symbol_table e.2).isSome

/-- The node id regenerated from a definition's own fields (used for
deduplication inside `get_route_context`). -/
def defNodeId (d : FunctionDef) : String := nodeId d.file_path d.name

/-- A chain `A → B → C` inside one file, with a handler (lines 45–55)
that calls `A` and then `B`. -/
def chainDefA : FunctionDef := ⟨"A", "/w/m.js", 10, 19, "function A(){B()}"⟩

def chainDefB : FunctionDef := ⟨"B", "/w/m.js", 20, 29, "function B(){C()}"⟩

def chainDefC : FunctionDef := ⟨"C", "/w/m.js", 30, 39, "function C(){}"⟩

def chainGraph : DependencyGraph :=
  buildGraph [] DependencyGraph.init
    [⟨"/w/m.js", [chainDefA, chainDefB, chainDefC],
      [⟨"B", "/w/m.js", 12, none⟩, ⟨"C", "/w/m.js", 22, none⟩,
       ⟨"A", "/w/m.js", 50, none⟩, ⟨"B", "/w/m.js", 51, none⟩], []⟩]

def chainRoute : RouteInfo := ⟨"/w/m.js", "GET", "/r", 45, 55, "handler", []⟩

/-- Modelled from the amended wording: append each slice member whose
node id is not already among the collected definitions' ids. -/
def dedupAppend (acc : List FunctionDef) (ds : List FunctionDef) :
    List FunctionDef :=
  ds.foldl
    (fun acc d =>
      if defNodeId d ∈ acc.map defNodeId then acc else acc ++ [d])
    acc

/-- Modelled from the amended wording: resolve the candidate (a raised
resolution error propagates); skip it entirely when its node id already
appears among the collected definitions, otherwise union in its whole
slice. -/
def assembleStepE (fs : List String) (g : DependencyGraph) (filePath : String)
    (depth : Nat) (acc : List FunctionDef) (call : FunctionCall) :
    PyResult (List FunctionDef) :=
  match resolveCandidateE fs g filePath call.name with
  | PyResult.exn => PyResult.exn
  | PyResult.ok (some cid) =>
      PyResult.ok
        (if cid ∈ acc.map defNodeId then acc
         else dedupAppend acc (getSlice g cid depth))
  | PyResult.ok none => PyResult.ok acc

/-- The amended context-assembly contract, written from the spec's
words: candidates in call order, skip-if-already-collected, slices
unioned with first-seen order and node-id deduplication, and the
resolution `ValueError` propagated. -/
def assembleDefsE (fs : List String) (g : DependencyGraph) (route : RouteInfo)
    (depth : Nat) : PyResult (List FunctionDef) :=
  foldPy (assembleStepE fs g route.file_path depth) (callsInHandler g route) []

/-- The claim's probe for "extension appended": glue the extension onto
the final component unconditionally. -/
def appendExt (comps : List String) (ext : String) : List String :=
  match comps.getLast? with
  | none => comps
  | some c => comps.dropLast ++ [c ++ ext]

/-- The import-path probing exactly as the claim words it: extensions
appended (never substituted). -/
def claimResolveImportPath (fs : List String)
    (currentFile importPath : String) : Option String :=
  if ¬ startsWithDot importPath then none
  else
    let baseDir := (pathComponents currentFile).dropLast
    let candidate := normalizeComponents (baseDir ++ splitSlash importPath)
    let probes := [candidate, appendExt candidate ".js",
                   appendExt candidate ".ts",
                   candidate ++ ["index.js"], candidate ++ ["index.ts"]]
    (probes.find? (fun p => renderPath p ∈ fs)).map renderPath

/-- The call resolution exactly as the claim words it: only "the
matching ImportBinding" (the first binding with the bound name) is
consulted; if it fails, resolution returns none. -/
def claimResolveCallViaImports (fs : List String) (g : DependencyGraph)
    (filePath callName : String) : Option String :=
  match (dictGetD g.file_imports filePath []).find?
      (fun imp => imp.name == callName) with
  | none => none
  | some imp =>
      match claimResolveImportPath fs filePath imp.path with
      | some p =>
          if dictMem g.symbol_table (nodeId p callName)
          then some (nodeId p callName) else none
      | none => none

/-- State A: two bindings for `f` — a bare one and a relative one whose
specifier carries a dotted final component; only `/p/util.js` exists. -/
def c3GraphA : DependencyGraph :=
  buildPhase1 DependencyGraph.init
    [⟨"/p/util.js", [⟨"f", "/p/util.js", 1, 2, "function f(){}"⟩], [], []⟩,
     ⟨"/p/main.js", [], [],
       [⟨"f", "pkg", "/p/main.js", 1⟩,
        ⟨"f", "./util.min", "/p/main.js", 2⟩]⟩]

/-- State B: a single relative binding `./util.min` while only
`/p/util.min.js` exists. -/
def c3GraphB : DependencyGraph :=
  buildPhase1 DependencyGraph.init
    [⟨"/p/util.min.js",
       [⟨"f", "/p/util.min.js", 1, 2, "function f(){}"⟩], [], []⟩,
     ⟨"/p/main.js", [], [], [⟨"f", "./util.min", "/p/main.js", 1⟩]⟩]

/-- State C: a binding whose specifier `..` escapes to the filesystem
root from a file one directory below it — the candidate `Path` is `/`,
so `with_suffix` raises `ValueError` while the probe list is built. -/
def c3GraphC : DependencyGraph :=
  buildPhase1 DependencyGraph.init
    [⟨"/app/main.js", [], [], [⟨"f", "..", "/app/main.js", 1⟩]⟩]

/-- A walked file whose handler-range call `f` is bound by a
root-escaping import (`require('..')` in a file one directory below
root): resolving it raises `ValueError`. -/
def rootImportFile : FileFacts :=
  ⟨"/app/main.js", [], [⟨"f", "/app/main.js", 12, none⟩],
    [⟨"f", "..", "/app/main.js", 1⟩]⟩

/-- A route on that file whose handler lines contain the call site. -/
def rootRoute : RouteInfo := ⟨"/app/main.js", "GET", "/", 10, 20, "handler", []⟩

/-- The graph built from `rootImportFile` (phase 2 never reaches the
binding: the file defines no functions, so no call has an enclosing
function and `build_graph` itself completes). -/
def rootGraph : DependencyGraph :=
  buildGraph [] DependencyGraph.init [rootImportFile]

/-- A walked file where phase 2 itself hits the root-escaping binding:
`g` encloses a call to `f`, `f` is not defined in the file, and the
binding for `f` has specifier `..` one directory below the root. -/
def c7RaiseFile : FileFacts :=
  ⟨"/app/main.js", [⟨"g", "/app/main.js", 1, 10, "function g(){f()}"⟩],
    [⟨"f", "/app/main.js", 5, none⟩], [⟨"f", "..", "/app/main.js", 1⟩]⟩

/-- Trailing run of non-dot characters of a name. -/
def afterLastDot (cs : List Char) : Nat :=
  (cs.reverse.takeWhile (fun ch => ch ≠ '.')).length

/-- Modelled from the amended wording: when the final component's last
dot is neither leading nor trailing, everything from that dot is dropped
before the extension is attached; otherwise the extension is appended. -/
def substExtName (name ext : String) : String :=
  if '.' ∈ name.toList ∧
      0 < name.toList.length - 1 - afterLastDot name.toList ∧
      0 < afterLastDot name.toList then
    (name.toList.take
      (name.toList.length - 1 - afterLastDot name.toList)).asString ++ ext
  else (name.toList.take name.toList.length).asString ++ ext

/-- Substitute-or-append the extension on the final path component. -/
def substExt (comps : List String) (ext : String) : List String :=
  match comps.getLast? with
  | none => comps
  | some c => comps.dropLast ++ [substExtName c ext]

/-- Modelled from the amended wording: probing with substituted
extensions, raising `ValueError` when the candidate has no final
component. -/
def amendedProbe (fs : List String) (candidate : List String) :
    PyResult (Option String) :=
  if candidate = [] then PyResult.exn
  else
    PyResult.ok
      (([candidate, substExt candidate ".js", substExt candidate ".ts",
         candidate ++ ["index.js"], candidate ++ ["index.ts"]].find?
          (fun p => renderPath p ∈ fs)).map renderPath)

/-- Modelled from the amended wording: a non-relative specifier fails,
otherwise the candidate is probed (raising on a rootward-escaping
specifier whose candidate is the root). -/
def amendedResolveImportPathE (fs : List String)
    (currentFile importPath : String) : PyResult (Option String) :=
  if ¬ startsWithDot importPath then PyResult.ok none
  else
    amendedProbe fs
      (normalizeComponents
        ((pathComponents currentFile).dropLast ++ splitSlash importPath))

/-- Modelled from the amended wording: the bindings whose bound name
matches, tried in order; the first whose probe finds an existing file
with a registered node wins, a binding that merely fails is passed over,
and a raised `ValueError` propagates. -/
def amendedBindingsE (fs : List String) (symtab : Dict FunctionDef)
    (filePath callName : String) : List ImportInfo → PyResult (Option String)
  | [] => PyResult.ok none
  | imp :: rest =>
      match amendedResolveImportPathE fs filePath imp.path with
      | PyResult.exn => PyResult.exn
      | PyResult.ok (some p) =>
          if dictMem symtab (nodeId p callName) then
            PyResult.ok (some (nodeId p callName))
          else amendedBindingsE fs symtab filePath callName rest
      | PyResult.ok none => amendedBindingsE fs symtab filePath callName rest

/-- The amended import-resolution contract, written from the spec's
words: restrict to the matching bindings, then try them in order. -/
def amendedResolveCallE (fs : List String) (g : DependencyGraph)
    (filePath callName : String) : PyResult (Option String) :=
  amendedBindingsE fs g.symbol_table filePath callName
    ((dictGetD g.file_imports filePath []).filter
      (fun imp => imp.name = callName))

/-- The edge (if any) contributed by one call site, as a pure function
of the state's queryable stores. -/
def callEdge (fs : List String) (g : DependencyGraph) (p : String)
    (c : FunctionCall) : Option (String × String) :=
  match findEnclosingFunction g p c.line with
  | none => none
  | some cn =>
      if cn = "" then none
      else
        if (dictGetD g.file_functions p []).any
            (fun d => d.name = c.name) then
          if g.graph.hasNode (nodeId p cn) ∧
              g.graph.hasNode (nodeId p c.name) then
            some (nodeId p cn, nodeId p c.name)
          else none
        else
          match resolveCallViaImports fs g p c.name with
          | some r =>
              if g.graph.hasNode (nodeId p cn) then some (nodeId p cn, r)
              else none
          | none => none

/-- Two states answering every store query identically (phase 2 reads
states only through these queries). -/
def QueryEquiv (g1 g2 : DependencyGraph) : Prop :=
  (∀ k, dictGet g1.file_functions k = dictGet g2.file_functions k) ∧
  (∀ k, dictGet g1.file_imports k = dictGet g2.file_imports k) ∧
  (∀ k, dictGet g1.symbol_table k = dictGet g2.symbol_table k) ∧
  (∀ k, dictGet g1.graph.nodes k = dictGet g2.graph.nodes k)

/-- The definition a single file contributes at symbol key `k` (the last
one wins on an in-file name collision). -/
def fileSym (f : FileFacts) (k : String) : Option FunctionDef :=
  (f.defs.filter (fun d => nodeId f.path d.name = k)).getLast?

/-- The symbol a list of files contributes at key `k`, with files later
in the list taking priority (dict overwrite order). -/
def symLookupRev (files : List FileFacts) (k : String) : Option FunctionDef :=
  match files with
  | [] => none
  | f :: rest =>
      match symLookupRev rest k with
      | some d => some d
      | none => fileSym f k

/-- The last file of the list with the given path (dict overwrite
order). -/
def lastFile (files : List FileFacts) (p : String) : Option FileFacts :=
  match files with
  | [] => none
  | f :: rest =>
      match lastFile rest p with
      | some f' => some f'
      | none => if f.path = p then some f else none

/-- Whether a file contributes the symbol key `k`. -/
def ownsKey (k : String) (f : FileFacts) : Bool :=
  f.defs.any (fun d => nodeId f.path d.name = k)

/-- Witness files for C8: `x.js` imports and calls `y` from `y.js`. -/
def fileX : FileFacts :=
  ⟨"/w/x.js", [⟨"x", "/w/x.js", 1, 5, "function x(){y()}"⟩],
    [⟨"y", "/w/x.js", 2, none⟩], [⟨"y", "./y", "/w/x.js", 1⟩]⟩

def fileY : FileFacts :=
  ⟨"/w/y.js", [⟨"y", "/w/y.js", 1, 3, "function y(){}"⟩], [], []⟩

/-! ### Dictionary lemmas -/

theorem dictGet_insert {α : Type} (d : Dict α) (k k' : String) (v : α) :
    dictGet (dictInsert d k v) k' = if k' = k then some v else dictGet d k' := by
  induction d with
  | nil =>
      by_cases h : k' = k
      · subst h; simp [dictInsert, dictGet]
      · simp [dictInsert, dictGet, h, Ne.symm h]
  | cons hd tl ih =>
      obtain ⟨k₀, v₀⟩ := hd
      by_cases h0 : k₀ = k
      · subst h0
        by_cases h1 : k' = k₀
        · subst h1; simp [dictInsert, dictGet]
        · simp [dictInsert, dictGet, h1, Ne.symm h1]
      · by_cases h1 : k' = k₀
        · subst h1
          simp [dictInsert, dictGet, h0, Ne.symm h0]
        · simp [dictInsert, dictGet, h0, h1, Ne.symm h1, ih]

theorem dictGet_insert_self {α : Type} (d : Dict α) (k : String) (v : α) :
    dictGet (dictInsert d k v) k = some v := by
  simp [dictGet_insert]

theorem dictGet_insert_isSome {α : Type} (d : Dict α) (k k' : String) (v : α)
    (h : (dictGet d k').isSome) : (dictGet (dictInsert d k v) k').isSome := by
  rw [dictGet_insert]
  by_cases hk : k' = k <;> simp [hk, h]

/-! ### C5: depth-0 slices -/

/-- C5: for every node id registered in the graph (hence carrying its
definition as the `data` attribute), `get_slice(n, 0)` returns exactly
the one-element list holding that node's own definition. -/
theorem c5_slice_depth_zero (g : DependencyGraph) (n : String)
    (d : FunctionDef) (h : dictGet g.graph.nodes n = some (some d)) :
    getSlice g n 0 = [d] := by
  have hm : g.graph.hasNode n = true := by
    simp [DiGraph.hasNode, dictMem, h]
  unfold getSlice
  rw [hm]
  simp [sliceIds, bfsSeen, h]

/-- Witness for C5 at the concrete one-node graph. -/
theorem c5_slice_depth_zero_witness :
    getSlice gWitness "/w/a.js:f" 0 = [defF] :=
  c5_slice_depth_zero gWitness "/w/a.js:f" defF (by decide)

/-! ### C10: default depth -/

/-- C10: omitting the depth argument of `get_slice` and
`get_route_context` is the same as passing `depth = 5`. -/
theorem c10_default_depth_five (fs : List String) (g : DependencyGraph)
    (n : String) (route : RouteInfo) :
    getSliceDefault g n = getSlice g n 5 ∧
    getRouteContextDefault fs g route = getRouteContext fs g route 5 :=
  ⟨rfl, rfl⟩

/-! ### C6: BFS visits each node once and terminates on cycles -/

theorem seenStep_fold_nodup (cs : List String)
    (acc : List String × List String) (h : acc.1.Nodup) :
    ((cs.foldl seenStep acc).1).Nodup := by
  induction cs generalizing acc with
  | nil => exact h
  | cons c cs ih =>
      simp only [List.foldl]
      refine ih (seenStep acc c) ?_
      by_cases hc : c ∈ acc.1
      · simpa [seenStep, hc] using h
      · simp only [seenStep, if_neg hc]
        simp [List.nodup_append, h, hc]

theorem bfsExpand_nodup (adj : String → List String)
    (frontier seen : List String) (h : seen.Nodup) :
    ((bfsExpand adj frontier seen).1).Nodup := by
  unfold bfsExpand
  suffices H : ∀ (fr : List String) (acc : List String × List String),
      acc.1.Nodup →
      ((fr.foldl (fun acc parent => (adj parent).foldl seenStep acc) acc).1).Nodup by
    exact H frontier (seen, []) h
  intro fr
  induction fr with
  | nil => intro acc h; exact h
  | cons p ps ih =>
      intro acc h
      exact ih _ (seenStep_fold_nodup _ _ h)

theorem bfsSeen_nodup (adj : String → List String) (d : Nat)
    (frontier seen : List String) (h : seen.Nodup) :
    (bfsSeen adj d frontier seen).Nodup := by
  induction d generalizing frontier seen with
  | zero => exact h
  | succ d ih =>
      cases frontier with
      | nil => exact h
      | cons p ps =>
          simp only [bfsSeen]
          exact ih _ _ (bfsExpand_nodup adj (p :: ps) seen h)

theorem bfsSeen_nil_frontier (adj : String → List String) (d : Nat)
    (seen : List String) : bfsSeen adj d [] seen = seen := by
  cases d <;> rfl

/-- C6: the slicer's visited list never repeats a node (the visited-set
guarantees each node is visited at most once, hence termination — the
model is a total function), and on the two-node cycle `A↔B` every slice
of depth at least 1 returns exactly the definitions of `A` and `B`. -/
theorem c6_slice_cycle_terminates :
    (∀ (g : DependencyGraph) (n : String) (d : Nat),
        (sliceIds g n d).Nodup) ∧
    (∀ d : Nat, 1 ≤ d →
        (getSlice cycleGraph "/w/c.js:A" d).Perm [cycleDefA, cycleDefB]) := by
  constructor
  · intro g n d
    exact bfsSeen_nodup _ d [n] [n] (List.nodup_singleton n)
  · have step1 : ∀ k : Nat,
        bfsSeen cycleGraph.graph.succ (k + 1) ["/w/c.js:A"] ["/w/c.js:A"] =
        bfsSeen cycleGraph.graph.succ k ["/w/c.js:B"]
          ["/w/c.js:A", "/w/c.js:B"] := fun _ => rfl
    have step2 : ∀ k : Nat,
        bfsSeen cycleGraph.graph.succ (k + 1) ["/w/c.js:B"]
          ["/w/c.js:A", "/w/c.js:B"] =
        bfsSeen cycleGraph.graph.succ k [] ["/w/c.js:A", "/w/c.js:B"] :=
      fun _ => rfl
    have hids : ∀ d : Nat, 1 ≤ d →
        sliceIds cycleGraph "/w/c.js:A" d =
          ["/w/c.js:A", "/w/c.js:B"] := by
      intro d hd
      match d, hd with
      | 1, _ => rfl
      | (k + 2), _ =>
          show bfsSeen cycleGraph.graph.succ (k + 2) ["/w/c.js:A"]
              ["/w/c.js:A"] = _
          rw [step1 (k + 1), step2 k, bfsSeen_nil_frontier]
    intro d hd
    have : getSlice cycleGraph "/w/c.js:A" d = [cycleDefA, cycleDefB] := by
      unfold getSlice
      rw [if_neg (by decide)]
      rw [hids d hd]
      rfl
    rw [this]

/-- Witness for C6 at depth 1. -/
theorem c6_slice_cycle_terminates_witness :
    (getSlice cycleGraph "/w/c.js:A" 1).Perm [cycleDefA, cycleDefB] :=
  c6_slice_cycle_terminates.2 1 (by decide)

/-! ### C9: innermost enclosing function -/

theorem enclosingStep_none (line : Nat) (acc : Option FunctionDef)
    (d : FunctionDef) :
    enclosingStep line acc d = none ↔ acc = none ∧ ¬ containsLine d line := by
  unfold enclosingStep containsLine
  by_cases h : d.start_line ≤ line ∧ line ≤ d.end_line
  · rw [if_pos h]
    cases acc with
    | none => simp [h]
    | some b =>
        by_cases hs : d.end_line - d.start_line < b.end_line - b.start_line <;>
          simp [hs, h]
  · rw [if_neg h]
    simp [h]

theorem enclosingStep_skip (line : Nat) (acc : Option FunctionDef)
    (d : FunctionDef) (h : ¬ containsLine d line) :
    enclosingStep line acc d = acc := by
  unfold enclosingStep
  exact if_neg h

theorem enclosingStep_min (line : Nat) (acc : Option FunctionDef)
    (d : FunctionDef) (hd : containsLine d line) :
    ∃ c, enclosingStep line acc d = some c ∧ spanOf c ≤ spanOf d ∧
      (∀ b, acc = some b → spanOf c ≤ spanOf b) ∧
      (c = d ∨ acc = some c) := by
  unfold enclosingStep
  have hd' : d.start_line ≤ line ∧ line ≤ d.end_line := hd
  rw [if_pos hd']
  cases acc with
  | none => exact ⟨d, rfl, le_refl _, by simp, Or.inl rfl⟩
  | some b =>
      by_cases hs : d.end_line - d.start_line < b.end_line - b.start_line
      · refine ⟨d, by simp [hs], le_refl _, ?_, Or.inl rfl⟩
        intro b' hb'
        cases hb'
        exact le_of_lt hs
      · refine ⟨b, by simp [hs], not_lt.mp hs, ?_, Or.inr rfl⟩
        intro b' hb'
        cases hb'
        exact le_refl _

theorem findEnclosing_fold_none (line : Nat) (defs : List FunctionDef) :
    ∀ acc, defs.foldl (enclosingStep line) acc = none ↔
      acc = none ∧ ∀ d ∈ defs, ¬ containsLine d line := by
  induction defs with
  | nil => simp
  | cons d ds ih =>
      intro acc
      simp only [List.foldl]
      rw [ih, enclosingStep_none]
      constructor
      · rintro ⟨⟨h1, h2⟩, h3⟩
        exact ⟨h1, by simpa [h2] using h3⟩
      · rintro ⟨h1, h2⟩
        simp only [List.mem_cons] at h2
        exact ⟨⟨h1, h2 d (Or.inl rfl)⟩, fun d' hd' => h2 d' (Or.inr hd')⟩

theorem findEnclosing_fold_some (line : Nat) (defs : List FunctionDef) :
    ∀ (acc : Option FunctionDef),
    (∀ b, acc = some b → containsLine b line) →
    ∀ r, defs.foldl (enclosingStep line) acc = some r →
      containsLine r line ∧
      (acc = some r ∨ r ∈ defs) ∧
      (∀ d ∈ defs, containsLine d line → spanOf r ≤ spanOf d) ∧
      (∀ b, acc = some b → spanOf r ≤ spanOf b) := by
  induction defs with
  | nil =>
      intro acc hacc r hr
      simp only [List.foldl] at hr
      refine ⟨hacc r hr, Or.inl hr, by simp, ?_⟩
      intro b hb
      rw [hr] at hb
      cases hb
      exact le_refl _
  | cons d ds ih =>
      intro acc hacc r hr
      simp only [List.foldl] at hr
      by_cases hd : containsLine d line
      · obtain ⟨c, hc, hcd, hcb, hcmem⟩ := enclosingStep_min line acc d hd
        rw [hc] at hr
        have hacc' : ∀ b, (some c : Option FunctionDef) = some b →
            containsLine b line := by
          intro b hb
          cases hb
          rcases hcmem with h | h
          · exact h ▸ hd
          · exact hacc c h
        obtain ⟨h1, h2, h3, h4⟩ := ih (some c) hacc' r hr
        have hrc : spanOf r ≤ spanOf c := h4 c rfl
        refine ⟨h1, ?_, ?_, ?_⟩
        · rcases h2 with h | h
          · have hcr : c = r := by injection h
            subst hcr
            rcases hcmem with h' | h'
            · exact Or.inr (h' ▸ List.mem_cons_self _ _)
            · exact Or.inl h'
          · exact Or.inr (List.mem_cons_of_mem _ h)
        · intro d' hd' hcont
          rcases List.mem_cons.mp hd' with h | h
          · exact h ▸ le_trans hrc hcd
          · exact h3 d' h hcont
        · intro b hb
          exact le_trans hrc (hcb b hb)
      · rw [enclosingStep_skip line acc d hd] at hr
        obtain ⟨h1, h2, h3, h4⟩ := ih acc hacc r hr
        refine ⟨h1, ?_, ?_, h4⟩
        · rcases h2 with h | h
          · exact Or.inl h
          · exact Or.inr (List.mem_cons_of_mem _ h)
        · intro d' hd' hcont
          rcases List.mem_cons.mp hd' with h | h
          · exact absurd (h ▸ hcont) hd
          · exact h3 d' h hcont

/-- C9: `_find_enclosing_function` returns the name of a containing
definition of minimal span, and `none` exactly when no definition in the
file contains the line. -/
theorem c9_enclosing_function_minimal_span (g : DependencyGraph)
    (filePath : String) (line : Nat) :
    (∀ name, findEnclosingFunction g filePath line = some name →
        ∃ d, d ∈ dictGetD g.file_functions filePath [] ∧
          containsLine d line ∧ d.name = name ∧
          ∀ d', d' ∈ dictGetD g.file_functions filePath [] →
            containsLine d' line → spanOf d ≤ spanOf d') ∧
    (findEnclosingFunction g filePath line = none ↔
        ∀ d, d ∈ dictGetD g.file_functions filePath [] →
          ¬ containsLine d line) := by
  constructor
  · intro name hname
    unfold findEnclosingFunction at hname
    cases hfe : findEnclosing (dictGetD g.file_functions filePath []) line with
    | none => rw [hfe] at hname; cases hname
    | some r =>
        rw [hfe] at hname
        obtain ⟨h1, h2, h3, _⟩ :=
          findEnclosing_fold_some line (dictGetD g.file_functions filePath [])
            none (by intro b hb; cases hb) r hfe
        cases hname
        refine ⟨r, ?_, h1, rfl, fun d' hd' hc => h3 d' hd' hc⟩
        rcases h2 with h | h
        · cases h
        · exact h
  · unfold findEnclosingFunction findEnclosing
    rw [Option.map_eq_none', findEnclosing_fold_none]
    simp

theorem c9_enclosing_function_minimal_span_witness :
    ∃ d, d ∈ dictGetD nestedGraph.file_functions "/w/n.js" [] ∧
      containsLine d 5 ∧ d.name = "inner" ∧
      ∀ d', d' ∈ dictGetD nestedGraph.file_functions "/w/n.js" [] →
        containsLine d' 5 → spanOf d ≤ spanOf d' :=
  (c9_enclosing_function_minimal_span nestedGraph "/w/n.js" 5).1 "inner"
    (by decide)

/-! ### C4: route-context fallback content, and the raising corner -/

theorem routeStep_none (fs : List String) (g : DependencyGraph)
    (filePath : String) (depth : Nat) (acc : List String × List FunctionDef)
    (call : FunctionCall)
    (h : resolveCandidate fs g filePath call.name = none) :
    routeStep fs g filePath depth acc call = acc := by
  unfold routeStep
  rw [h]

theorem routeContextDefs_nil (fs : List String) (g : DependencyGraph)
    (route : RouteInfo) (depth : Nat)
    (h : ∀ call ∈ callsInHandler g route,
        resolveCandidate fs g route.file_path call.name = none) :
    routeContextDefs fs g route depth = [] := by
  unfold routeContextDefs
  suffices H : ∀ (cs : List FunctionCall),
      (∀ c ∈ cs, resolveCandidate fs g route.file_path c.name = none) →
      ∀ acc, cs.foldl (routeStep fs g route.file_path depth) acc = acc by
    rw [H _ h ([], [])]
  intro cs
  induction cs with
  | nil => intro _ acc; rfl
  | cons c cs ih =>
      intro hcs acc
      simp only [List.foldl]
      rw [routeStep_none fs g route.file_path depth acc c
        (hcs c (List.mem_cons_self _ _))]
      exact ih (fun c' hc' => hcs c' (List.mem_cons_of_mem _ hc')) acc

/-- Supporting fact for the non-raising projection of
`get_route_context`: it returns a non-empty string, and when no call
site inside the handler range resolves to a registered node, the result
contains the route's file path, its line range, and the raw handler
source verbatim.  (The claim's universal "returns a … string" is
refuted by `c4_route_context_raises`: a root-escaping import binding
makes the code raise `ValueError` instead of returning.) -/
theorem c4_route_context_nonempty_fallback (fs : List String)
    (g : DependencyGraph) (route : RouteInfo) (depth : Nat) :
    0 < (getRouteContext fs g route depth).length ∧
    ((∀ call ∈ callsInHandler g route,
        resolveCandidate fs g route.file_path call.name = none) →
      containsStr (getRouteContext fs g route depth) route.file_path ∧
      containsStr (getRouteContext fs g route depth)
        (toString route.handler_start_line ++ "-" ++
          toString route.handler_end_line) ∧
      containsStr (getRouteContext fs g route depth)
        route.handler_source) := by
  constructor
  · unfold getRouteContext
    have hn : 0 < ("\n" : String).length := by decide
    by_cases h : routeContextDefs fs g route depth = []
    · rw [if_pos h]
      simp only [String.length_append]
      omega
    · rw [if_neg h]
      simp only [String.length_append]
      omega
  · intro h
    have hnil := routeContextDefs_nil fs g route depth h
    have hctx : getRouteContext fs g route depth =
        renderBlock route.file_path route.handler_start_line
          route.handler_end_line route.handler_source ++ "\n" := by
      unfold getRouteContext
      rw [hnil]
      rfl
    rw [hctx]
    unfold renderBlock
    refine ⟨⟨"// File: ", ", Lines " ++ toString route.handler_start_line ++
      "-" ++ toString route.handler_end_line ++ "\n" ++
      route.handler_source ++ "\n", ?_⟩,
      ⟨"// File: " ++ route.file_path ++ ", Lines ",
        "\n" ++ route.handler_source ++ "\n", ?_⟩,
      ⟨"// File: " ++ route.file_path ++ ", Lines " ++
        toString route.handler_start_line ++ "-" ++
        toString route.handler_end_line ++ "\n", "\n", ?_⟩⟩ <;>
      simp [String.append_assoc]

/-- Witness for the fallback clause at a concrete route. -/
theorem c4_route_context_nonempty_fallback_witness :
    containsStr (getRouteContext [] gWitness emptyRoute 5) "/w/a.js" ∧
    containsStr (getRouteContext [] gWitness emptyRoute 5)
      (toString (20 : Nat) ++ "-" ++ toString (30 : Nat)) ∧
    containsStr (getRouteContext [] gWitness emptyRoute 5) "res.send(1)" :=
  (c4_route_context_nonempty_fallback [] gWitness emptyRoute 5).2 (by decide)

/-- C4: `get_route_context` does NOT return a (non-empty) string for
every entry point and depth — on a route whose handler contains a call
bound by a root-escaping relative import (`require('..')` one directory
below root), `_resolve_import_path`'s eager `with_suffix` probes raise
`ValueError` before any existence check, and the exception propagates
out of `get_route_context`. -/
theorem c4_route_context_raises :
    getRouteContextE [] rootGraph rootRoute 5 = PyResult.exn := by decide

/-! ### C1: re-invoking `build_graph` accumulates rather than replaces -/

theorem dictGet_append {α : Type} (l l' : Dict α) (k : String) :
    dictGet (l ++ l') k =
      match dictGet l k with
      | some v => some v
      | none => dictGet l' k := by
  induction l with
  | nil => simp [dictGet]
  | cons hd tl ih =>
      obtain ⟨k₀, v₀⟩ := hd
      by_cases h : k₀ = k <;> simp [dictGet, h, ih]

theorem touchNode_isSome (g : DiGraph) (m n : String)
    (h : (dictGet g.nodes n).isSome) :
    (dictGet (g.touchNode m) n).isSome := by
  unfold DiGraph.touchNode
  by_cases hm : (dictGet g.nodes m).isSome
  · rw [if_pos hm]; exact h
  · rw [if_neg hm, dictGet_append]
    cases hk : dictGet g.nodes n with
    | none => rw [hk] at h; cases h
    | some v => simp

theorem addEdge_nodes_isSome (g : DiGraph) (u v n : String)
    (h : (dictGet g.nodes n).isSome) :
    (dictGet (g.addEdge u v).nodes n).isSome := by
  unfold DiGraph.addEdge
  exact touchNode_isSome ⟨g.touchNode u, g.edges⟩ v n (touchNode_isSome g u n h)

theorem addEdge_edges_mem (g : DiGraph) (u v : String) (e : String × String)
    (h : e ∈ g.edges) : e ∈ (g.addEdge u v).edges := by
  unfold DiGraph.addEdge
  by_cases hm : (u, v) ∈ g.edges
  · simpa [hm] using h
  · simp only [if_neg hm]
    exact List.mem_append_left _ h

theorem addEdge_self_mem (g : DiGraph) (u v : String) :
    (u, v) ∈ (g.addEdge u v).edges := by
  unfold DiGraph.addEdge
  by_cases hm : (u, v) ∈ g.edges
  · simp [hm]
  · simp [hm]

theorem addEdge_edges_sub (g : DiGraph) (u v : String) (e : String × String)
    (h : e ∈ (g.addEdge u v).edges) : e = (u, v) ∨ e ∈ g.edges := by
  unfold DiGraph.addEdge at h
  by_cases hm : (u, v) ∈ g.edges
  · simp only [if_pos hm] at h
    exact Or.inr h
  · simp only [if_neg hm] at h
    rcases List.mem_append.mp h with h | h
    · exact Or.inr h
    · simp at h
      exact Or.inl h

theorem resolveImportsList_some_mem (fs : List String)
    (symtab : Dict FunctionDef) (filePath callName : String)
    (imps : List ImportInfo) (r : String)
    (h : resolveImportsList fs symtab filePath callName imps = some r) :
    dictMem symtab r = true := by
  induction imps with
  | nil => cases h
  | cons imp rest ih =>
      unfold resolveImportsList at h
      by_cases h1 : imp.name = callName
      · rw [if_pos h1] at h
        cases h2 : resolveImportPath fs filePath imp.path with
        | none => rw [h2] at h; exact ih h
        | some p =>
            rw [h2] at h
            by_cases h3 : dictMem symtab (nodeId p callName) = true
            · simp only [h3, if_pos] at h
              cases h
              exact h3
            · simp only [h3] at h
              simp at h3
              rw [if_neg (by simp [h3])] at h
              exact ih h
      · rw [if_neg h1] at h
        exact ih h

/-- Every branch of `_resolve_calls`'s loop body either leaves the state
unchanged or adds one edge whose source is an existing node and whose
target is an existing node or symbol-table entry. -/
theorem resolveCall_cases (fs : List String) (g : DependencyGraph)
    (p : String) (c : FunctionCall) :
    resolveCall fs g p c = g ∨
    ∃ u v, (g.graph.hasNode u = true ∧
        (g.graph.hasNode v = true ∨ dictMem g.symbol_table v = true)) ∧
      resolveCall fs g p c = { g with graph := g.graph.addEdge u v } := by
  unfold resolveCall
  cases hE : findEnclosingFunction g p c.line with
  | none => exact Or.inl rfl
  | some cn =>
      dsimp only
      by_cases hcn : cn = ""
      · rw [if_pos hcn]
        exact Or.inl rfl
      · rw [if_neg hcn]
        by_cases hl : (dictGetD g.file_functions p []).any
            (fun d => d.name = c.name) = true
        · rw [if_pos hl]
          by_cases hn : g.graph.hasNode (nodeId p cn) = true ∧
              g.graph.hasNode (nodeId p c.name) = true
          · rw [if_pos hn]
            exact Or.inr ⟨nodeId p cn, nodeId p c.name,
              ⟨hn.1, Or.inl hn.2⟩, rfl⟩
          · rw [if_neg hn]
            exact Or.inl rfl
        · rw [if_neg hl]
          cases hR : resolveCallViaImports fs g p c.name with
          | none => exact Or.inl rfl
          | some r =>
              dsimp only
              by_cases hn : g.graph.hasNode (nodeId p cn) = true
              · rw [if_pos hn]
                refine Or.inr ⟨nodeId p cn, r, ⟨hn, Or.inr ?_⟩, rfl⟩
                exact resolveImportsList_some_mem fs g.symbol_table p c.name
                  (dictGetD g.file_imports p []) r hR
              · rw [if_neg hn]
                exact Or.inl rfl

theorem stateLe_refl (g : DependencyGraph) : StateLe g g :=
  ⟨fun _ h => h, fun _ h => h, fun _ h => h, fun _ h => h,
   fun _ h => h, fun _ h => h⟩

theorem StateLe.trans {g1 g2 g3 : DependencyGraph}
    (h12 : StateLe g1 g2) (h23 : StateLe g2 g3) : StateLe g1 g3 :=
  ⟨fun n h => h23.1 n (h12.1 n h),
   fun e h => h23.2.1 e (h12.2.1 e h),
   fun k h => h23.2.2.1 k (h12.2.2.1 k h),
   fun k h => h23.2.2.2.1 k (h12.2.2.2.1 k h),
   fun k h => h23.2.2.2.2.1 k (h12.2.2.2.2.1 k h),
   fun k h => h23.2.2.2.2.2 k (h12.2.2.2.2.2 k h)⟩

theorem foldl_stateLe {β : Type} (step : DependencyGraph → β → DependencyGraph)
    (hstep : ∀ g b, StateLe g (step g b)) :
    ∀ (l : List β) (g : DependencyGraph), StateLe g (l.foldl step g) := by
  intro l
  induction l with
  | nil => intro g; exact stateLe_refl g
  | cons b bs ih =>
      intro g
      exact StateLe.trans (hstep g b) (ih (step g b))

theorem registerFile_le (g : DependencyGraph) (f : FileFacts) :
    StateLe g (registerFile g f) := by
  unfold registerFile
  refine @StateLe.trans g
    { g with
      file_functions := dictInsert g.file_functions f.path f.defs
      file_calls := dictInsert g.file_calls f.path f.calls
      file_imports := dictInsert g.file_imports f.path f.imports }
    _ ?_ ?_
  · exact ⟨fun n h => h, fun e h => h, fun k h => h,
      fun k h => dictGet_insert_isSome _ _ _ _ h,
      fun k h => dictGet_insert_isSome _ _ _ _ h,
      fun k h => dictGet_insert_isSome _ _ _ _ h⟩
  · refine foldl_stateLe _ ?_ f.defs _
    intro g fdef
    exact ⟨fun n h => dictGet_insert_isSome _ _ _ _ h, fun e h => h,
      fun k h => dictGet_insert_isSome _ _ _ _ h,
      fun k h => h, fun k h => h, fun k h => h⟩

theorem resolveCall_le (fs : List String) (g : DependencyGraph)
    (p : String) (c : FunctionCall) : StateLe g (resolveCall fs g p c) := by
  rcases resolveCall_cases fs g p c with h | ⟨u, v, _, h⟩
  · rw [h]; exact stateLe_refl g
  · rw [h]
    exact ⟨fun n hn => addEdge_nodes_isSome g.graph u v n hn,
      fun e he => addEdge_edges_mem g.graph u v e he,
      fun k hk => hk, fun k hk => hk, fun k hk => hk, fun k hk => hk⟩

theorem buildGraph_le (fs : List String) (g : DependencyGraph)
    (files : List FileFacts) : StateLe g (buildGraph fs g files) := by
  unfold buildGraph buildPhase1 buildPhase2
  refine StateLe.trans (foldl_stateLe registerFile registerFile_le files g) ?_
  refine foldl_stateLe _ ?_ _ _
  intro g pc
  exact foldl_stateLe _ (fun g c => resolveCall_le fs g pc.1 c) pc.2 g

/-- C1 counterexample: building once with a one-file fact set and then
re-invoking `build_graph` with an empty fact set does NOT leave the node
set of a fresh instance built with the empty set — the node from the
first build persists. -/
theorem c1_rebuild_counterexample :
    (buildGraph [] (buildGraph [] DependencyGraph.init
        [⟨"/w/a.js", [defF], [], []⟩]) []).graph.nodes ≠
    (buildGraph [] DependencyGraph.init []).graph.nodes := by decide

/-! ### C7: edges only between registered nodes -/

theorem dictInsert_map_some (st : Dict FunctionDef) (k : String)
    (v : FunctionDef) :
    (dictInsert st k v).map (fun p => (p.1, some p.2)) =
      dictInsert (st.map (fun p => (p.1, some p.2))) k (some v) := by
  induction st with
  | nil => rfl
  | cons hd tl ih =>
      obtain ⟨k₀, v₀⟩ := hd
      by_cases h : k₀ = k <;> simp [dictInsert, h, ih]

theorem dictGet_map_some (l : Dict FunctionDef) (k : String) :
    dictGet (l.map (fun p => (p.1, some p.2))) k = (dictGet l k).map some := by
  induction l with
  | nil => rfl
  | cons hd tl ih =>
      obtain ⟨k₀, v₀⟩ := hd
      by_cases h : k₀ = k <;> simp [dictGet, h, ih]

theorem Mirror.hasNode_iff {g : DependencyGraph} (hM : Mirror g)
    (k : String) : g.graph.hasNode k = dictMem g.symbol_table k := by
  unfold DiGraph.hasNode dictMem
  rw [hM, dictGet_map_some]
  cases dictGet g.symbol_table k <;> rfl

theorem registerFile_mirror (g : DependencyGraph) (f : FileFacts)
    (hM : Mirror g) : Mirror (registerFile g f) := by
  unfold registerFile
  have base : Mirror
      { g with
        file_functions := dictInsert g.file_functions f.path f.defs
        file_calls := dictInsert g.file_calls f.path f.calls
        file_imports := dictInsert g.file_imports f.path f.imports } := hM
  revert base
  generalize { g with
      file_functions := dictInsert g.file_functions f.path f.defs
      file_calls := dictInsert g.file_calls f.path f.calls
      file_imports := dictInsert g.file_imports f.path f.imports } = g0
  induction f.defs generalizing g0 with
  | nil => intro h; exact h
  | cons d ds ih =>
      intro h
      simp only [List.foldl]
      refine ih _ ?_
      unfold Mirror at h ⊢
      show dictInsert g0.graph.nodes (nodeId f.path d.name) (some d) =
        (dictInsert g0.symbol_table (nodeId f.path d.name) d).map
          (fun p => (p.1, some p.2))
      rw [h, dictInsert_map_some]

theorem registerFile_edges (g : DependencyGraph) (f : FileFacts) :
    (registerFile g f).graph.edges = g.graph.edges := by
  unfold registerFile
  generalize hG : { g with
      file_functions := dictInsert g.file_functions f.path f.defs
      file_calls := dictInsert g.file_calls f.path f.calls
      file_imports := dictInsert g.file_imports f.path f.imports } = g0
  have : g0.graph.edges = g.graph.edges := by rw [← hG]
  revert this
  generalize g0 = g1
  induction f.defs generalizing g1 with
  | nil => intro h; exact h
  | cons d ds ih =>
      intro h
      simp only [List.foldl]
      exact ih _ h

theorem registerFile_edgesOk (g : DependencyGraph) (f : FileFacts)
    (hE : EdgesOk g) : EdgesOk (registerFile g f) := by
  intro e he
  rw [registerFile_edges] at he
  obtain ⟨h1, h2⟩ := hE e he
  constructor
  · exact ((registerFile_le g f).2.2.1) e.1 h1
  · exact ((registerFile_le g f).2.2.1) e.2 h2

theorem addEdge_nodes_of_hasNode (g : DiGraph) (u v : String)
    (hu : g.hasNode u = true) (hv : g.hasNode v = true) :
    (g.addEdge u v).nodes = g.nodes := by
  unfold DiGraph.addEdge DiGraph.touchNode
  unfold DiGraph.hasNode dictMem at hu hv
  rw [if_pos hu]
  exact if_pos hv

theorem resolveCall_mirror_edgesOk (fs : List String) (g : DependencyGraph)
    (p : String) (c : FunctionCall) (hM : Mirror g) (hE : EdgesOk g) :
    Mirror (resolveCall fs g p c) ∧ EdgesOk (resolveCall fs g p c) := by
  rcases resolveCall_cases fs g p c with h | ⟨u, v, ⟨hu, hv⟩, h⟩
  · rw [h]; exact ⟨hM, hE⟩
  · have hv' : g.graph.hasNode v = true := by
      rcases hv with hv | hv
      · exact hv
      · rw [Mirror.hasNode_iff hM]; exact hv
    rw [h]
    constructor
    · unfold Mirror at hM ⊢
      simp only [addEdge_nodes_of_hasNode g.graph u v hu hv']
      exact hM
    · intro e he
      rcases addEdge_edges_sub g.graph u v e he with he' | he'
      · subst he'
        constructor
        · rw [Mirror.hasNode_iff hM] at hu
          unfold dictMem at hu
          simpa using hu
        · rw [Mirror.hasNode_iff hM] at hv'
          unfold dictMem at hv'
          simpa using hv'
      · exact hE e he'

theorem foldl_preserves {β : Type} (P : DependencyGraph → Prop)
    (step : DependencyGraph → β → DependencyGraph)
    (h : ∀ g b, P g → P (step g b)) :
    ∀ (l : List β) (g : DependencyGraph), P g → P (l.foldl step g) := by
  intro l
  induction l with
  | nil => intro g hg; exact hg
  | cons b bs ih => intro g hg; exact ih (step g b) (h g b hg)

theorem buildGraph_mirror_edgesOk (fs : List String) (g : DependencyGraph)
    (files : List FileFacts) (hM : Mirror g) (hE : EdgesOk g) :
    Mirror (buildGraph fs g files) ∧ EdgesOk (buildGraph fs g files) := by
  unfold buildGraph buildPhase1 buildPhase2
  have h1 := foldl_preserves (fun g => Mirror g ∧ EdgesOk g) registerFile
    (fun g f hg => ⟨registerFile_mirror g f hg.1, registerFile_edgesOk g f hg.2⟩)
    files g ⟨hM, hE⟩
  refine foldl_preserves (fun g => Mirror g ∧ EdgesOk g)
    (fun g (pc : String × List FunctionCall) =>
      resolveCalls fs g pc.1 pc.2) ?_ _ _ h1
  intro g pc hg
  unfold resolveCalls
  exact foldl_preserves (fun g => Mirror g ∧ EdgesOk g)
    (fun g c => resolveCall fs g pc.1 c)
    (fun g c hg => resolveCall_mirror_edgesOk fs g pc.1 c hg.1 hg.2)
    pc.2 g hg

/-- Supporting fact for the non-raising projection of `build_graph`:
both endpoints of every edge after a run from a fresh instance are
registered symbol-table entries, and a call site with no enclosing
function contributes nothing.  (The claim's "raises no error" conjunct
is refuted by `c7_build_graph_raises`: phase-2 import resolution can
raise `ValueError`.) -/
theorem c7_edge_endpoints_registered (fs : List String)
    (files : List FileFacts) :
    (∀ e ∈ (buildGraph fs DependencyGraph.init files).graph.edges,
        (dictGet (buildGraph fs DependencyGraph.init files).symbol_table
          e.1).isSome ∧
        (dictGet (buildGraph fs DependencyGraph.init files).symbol_table
          e.2).isSome) ∧
    (∀ (g : DependencyGraph) (p : String) (c : FunctionCall),
        findEnclosingFunction g p c.line = none → resolveCall fs g p c = g) := by
  constructor
  · exact (buildGraph_mirror_edgesOk fs DependencyGraph.init files rfl
      (fun e he => absurd he (List.not_mem_nil e))).2
  · intro g p c h
    unfold resolveCall
    rw [h]

/-- Witness on the concrete cyclic graph: the edge `A→B` has both
endpoints in the symbol table. -/
theorem c7_edge_endpoints_registered_witness :
    (dictGet cycleGraph.symbol_table "/w/c.js:A").isSome ∧
    (dictGet cycleGraph.symbol_table "/w/c.js:B").isSome :=
  (c7_edge_endpoints_registered []
      [⟨"/w/c.js", [cycleDefA, cycleDefB],
        [⟨"B", "/w/c.js", 2, none⟩, ⟨"A", "/w/c.js", 7, none⟩], []⟩]).1
    ("/w/c.js:A", "/w/c.js:B") (by decide)

/-- C7: `build_graph`'s phase 2 is NOT error-free — when a call with an
enclosing function is not defined in its file and its import binding's
specifier escapes to the filesystem root, `_resolve_import_path` raises
`ValueError` from the eager `with_suffix` probes and the exception
propagates out of `build_graph`. -/
theorem c7_build_graph_raises :
    buildGraphE [] DependencyGraph.init [c7RaiseFile] = PyResult.exn := by
  decide

/-! ### C2: route-context accumulation skips already-seen candidates -/

/-- C2 counterexample: the handler's second call resolves to the
registered node `B`, `C`'s definition is in `slice(B, 1)`, yet the run
completes with `C` missing from the assembled context at depth 1 —
because `B` was already collected as a member of `A`'s slice, its own
slice is never taken. -/
theorem c2_union_counterexample :
    (⟨"B", "/w/m.js", 51, none⟩ : FunctionCall) ∈
      callsInHandler chainGraph chainRoute ∧
    resolveCandidateE [] chainGraph "/w/m.js" "B" =
      PyResult.ok (some "/w/m.js:B") ∧
    chainDefC ∈ getSlice chainGraph "/w/m.js:B" 1 ∧
    routeContextDefsE [] chainGraph chainRoute 1 =
      PyResult.ok [chainDefA, chainDefB] ∧
    chainDefC ∉ [chainDefA, chainDefB] := by decide

theorem collectSliceDefs_spec (ds : List FunctionDef) :
    ∀ (seen : List String) (acc : List FunctionDef),
    seen = acc.map defNodeId →
    collectSliceDefs ds (seen, acc) =
      ((dedupAppend acc ds).map defNodeId, dedupAppend acc ds) := by
  induction ds with
  | nil =>
      intro seen acc h
      simp only [collectSliceDefs, dedupAppend, List.foldl]
      rw [h]
  | cons d ds ih =>
      intro seen acc h
      simp only [collectSliceDefs, dedupAppend, List.foldl] at ih ⊢
      by_cases hd : defNodeId d ∈ acc.map defNodeId
      · have hd' : nodeId d.file_path d.name ∈ seen := by
          rw [h]; exact hd
        rw [if_pos hd', if_pos hd]
        exact ih seen acc h
      · have hd' : nodeId d.file_path d.name ∉ seen := by
          rw [h]; exact hd
        rw [if_neg hd', if_neg hd]
        refine ih _ _ ?_
        simp [h, defNodeId]

theorem foldPy_cons_exn {α β : Type} (step : α → β → PyResult α) (b : β)
    (bs : List β) (a : α) (h : step a b = PyResult.exn) :
    foldPy step (b :: bs) a = PyResult.exn := by
  simp only [foldPy, h]

theorem foldPy_cons_ok {α β : Type} (step : α → β → PyResult α) (b : β)
    (bs : List β) (a a1 : α) (h : step a b = PyResult.ok a1) :
    foldPy step (b :: bs) a = foldPy step bs a1 := by
  simp only [foldPy, h]

theorem routeFoldE_spec (fs : List String) (g : DependencyGraph)
    (fp : String) (depth : Nat) (cs : List FunctionCall) :
    ∀ (seen : List String) (acc : List FunctionDef),
    seen = acc.map defNodeId →
    foldPy (routeStepE fs g fp depth) cs (seen, acc) =
      match foldPy (assembleStepE fs g fp depth) cs acc with
      | PyResult.exn => PyResult.exn
      | PyResult.ok acc2 => PyResult.ok (acc2.map defNodeId, acc2) := by
  induction cs with
  | nil =>
      intro seen acc h
      dsimp only [foldPy]
      rw [h]
  | cons c cs ih =>
      intro seen acc h
      cases hr : resolveCandidateE fs g fp c.name with
      | exn =>
          have hL : routeStepE fs g fp depth (seen, acc) c =
              PyResult.exn := by
            unfold routeStepE
            rw [hr]
          have hR : assembleStepE fs g fp depth acc c = PyResult.exn := by
            unfold assembleStepE
            rw [hr]
          rw [foldPy_cons_exn _ _ _ _ hL, foldPy_cons_exn _ _ _ _ hR]
      | ok o =>
          cases o with
          | none =>
              have hL : routeStepE fs g fp depth (seen, acc) c =
                  PyResult.ok (seen, acc) := by
                unfold routeStepE
                rw [hr]
              have hR : assembleStepE fs g fp depth acc c =
                  PyResult.ok acc := by
                unfold assembleStepE
                rw [hr]
              rw [foldPy_cons_ok _ _ _ _ _ hL, foldPy_cons_ok _ _ _ _ _ hR]
              exact ih seen acc h
          | some cid =>
              by_cases hc : cid ∈ acc.map defNodeId
              · have hc' : cid ∈ seen := by rw [h]; exact hc
                have hL : routeStepE fs g fp depth (seen, acc) c =
                    PyResult.ok (seen, acc) := by
                  unfold routeStepE
                  rw [hr]
                  dsimp only
                  rw [if_pos hc']
                have hR : assembleStepE fs g fp depth acc c =
                    PyResult.ok acc := by
                  unfold assembleStepE
                  rw [hr]
                  dsimp only
                  rw [if_pos hc]
                rw [foldPy_cons_ok _ _ _ _ _ hL, foldPy_cons_ok _ _ _ _ _ hR]
                exact ih seen acc h
              · have hc' : cid ∉ seen := by rw [h]; exact hc
                have hL : routeStepE fs g fp depth (seen, acc) c =
                    PyResult.ok (collectSliceDefs (getSlice g cid depth)
                      (seen, acc)) := by
                  unfold routeStepE
                  rw [hr]
                  dsimp only
                  rw [if_neg hc']
                have hR : assembleStepE fs g fp depth acc c =
                    PyResult.ok (dedupAppend acc (getSlice g cid depth)) := by
                  unfold assembleStepE
                  rw [hr]
                  dsimp only
                  rw [if_neg hc]
                rw [foldPy_cons_ok _ _ _ _ _ hL, foldPy_cons_ok _ _ _ _ _ hR]
                rw [collectSliceDefs_spec (getSlice g cid depth) seen acc h]
                exact ih _ _ rfl

/-- C2 amended: `get_route_context`'s collected definitions equal the
skip-if-seen assembly — a resolved candidate whose node id was already
collected is skipped outright (its slice is not re-taken); each other
candidate's slice is unioned in, deduplicated by node id, preserving
first-seen order across candidates in call order; and a `ValueError`
raised while resolving a candidate propagates identically on both
sides. -/
theorem c2_route_assembly_eq (fs : List String) (g : DependencyGraph)
    (route : RouteInfo) (depth : Nat) :
    routeContextDefsE fs g route depth = assembleDefsE fs g route depth := by
  unfold routeContextDefsE assembleDefsE
  rw [routeFoldE_spec fs g route.file_path depth (callsInHandler g route)
    [] [] rfl]
  cases foldPy (assembleStepE fs g route.file_path depth)
      (callsInHandler g route) [] with
  | exn => rfl
  | ok acc => rfl

/-! ### C3: import resolution -/

/-- C3 counterexample.  State A: the code skips the failing bare binding
and resolves via the second one, with `with_suffix` REPLACING `.min` by
`.js` — the claim's procedure (first matching binding only, extension
appended) returns none.  State B: the claim's appended probe
`/p/util.min.js` exists and would resolve, but the code's substituted
probes miss it and resolution fails.  State C: the claim says every
failure yields none, but a matching binding whose specifier escapes to
the filesystem root makes the code raise `ValueError` instead. -/
theorem c3_resolve_import_counterexample :
    (resolveCallViaImportsE ["/p/util.js"] c3GraphA "/p/main.js" "f" =
        PyResult.ok (some "/p/util.js:f") ∧
      claimResolveCallViaImports ["/p/util.js"] c3GraphA "/p/main.js" "f" =
        none) ∧
    (resolveCallViaImportsE ["/p/util.min.js"] c3GraphB "/p/main.js" "f" =
        PyResult.ok none ∧
      claimResolveCallViaImports ["/p/util.min.js"] c3GraphB "/p/main.js"
          "f" = some "/p/util.min.js:f") ∧
    resolveCallViaImportsE [] c3GraphC "/app/main.js" "f" =
      PyResult.exn := by decide

theorem afterLastDot_append (cs : List Char) (c : Char) :
    afterLastDot (cs ++ [c]) = if c = '.' then 0 else afterLastDot cs + 1 := by
  unfold afterLastDot
  rw [List.reverse_concat, List.takeWhile_cons]
  by_cases hc : c = '.' <;> simp [hc]

theorem lastDotIdx_append (cs : List Char) (c : Char) :
    lastDotIdx (cs ++ [c]) =
      if c = '.' then some cs.length else lastDotIdx cs := by
  unfold lastDotIdx
  have hlen : (cs ++ [c]).length = cs.length + 1 := by simp
  rw [hlen, List.range_succ, List.filter_append]
  have hpred : ∀ i ∈ List.range cs.length,
      (((cs ++ [c]).drop i).head? == some '.') =
      ((cs.drop i).head? == some '.') := by
    intro i hi
    rw [List.mem_range] at hi
    rw [List.head?_drop, List.head?_drop, List.getElem?_append_left hi]
  rw [List.filter_congr hpred]
  have hn : (((cs ++ [c]).drop cs.length).head? == some '.') = (c == '.') := by
    rw [List.head?_drop, List.getElem?_concat_length]
    rfl
  by_cases hc : c = '.'
  · have : ((cs ++ [c]).drop cs.length).head? == some '.' := by
      rw [hn]; simp [hc]
    simp only [List.filter, this, if_pos hc]
    rw [List.getLast?_concat]
  · have : (((cs ++ [c]).drop cs.length).head? == some '.') = false := by
      rw [hn]; simp [hc]
    simp only [List.filter, this, if_neg hc]
    simp

theorem lastDot_spec (cs : List Char) :
    ('.' ∈ cs → afterLastDot cs < cs.length ∧
      lastDotIdx cs = some (cs.length - 1 - afterLastDot cs)) ∧
    ('.' ∉ cs → lastDotIdx cs = none ∧ afterLastDot cs = cs.length) := by
  induction cs using List.reverseRecOn with
  | nil =>
      exact ⟨fun h => absurd h (List.not_mem_nil _), fun _ => ⟨rfl, rfl⟩⟩
  | append_singleton cs c ih =>
      constructor
      · intro hmem
        rw [afterLastDot_append, lastDotIdx_append]
        by_cases hc : c = '.'
        · rw [if_pos hc, if_pos hc]
          constructor
          · simp
          · simp
        · rw [if_neg hc, if_neg hc]
          have hcs : '.' ∈ cs := by
            rcases List.mem_append.mp hmem with h | h
            · exact h
            · rw [List.mem_singleton] at h
              exact absurd h.symm hc
          obtain ⟨hlt, heq⟩ := ih.1 hcs
          refine ⟨by simp; omega, ?_⟩
          rw [heq]
          congr 1
          simp
          omega
      · intro hmem
        rw [afterLastDot_append, lastDotIdx_append]
        have hc : ¬ c = '.' := fun h => hmem (by simp [h])
        have hcs : '.' ∉ cs := fun h => hmem (List.mem_append_left _ h)
        rw [if_neg hc, if_neg hc]
        obtain ⟨h1, h2⟩ := ih.2 hcs
        exact ⟨h1, by simp [h2]⟩

theorem substExtName_eq_withSuffix (name ext : String) :
    substExtName name ext =
      ((name.toList.take (name.toList.length - nameSuffixLen name)).asString)
        ++ ext := by
  unfold substExtName nameSuffixLen
  by_cases hmem : '.' ∈ name.toList
  · obtain ⟨hlt, heq⟩ := (lastDot_spec name.toList).1 hmem
    rw [heq]
    dsimp only
    by_cases hcond : 0 < name.toList.length - 1 - afterLastDot name.toList ∧
        0 < afterLastDot name.toList
    · rw [if_pos ⟨hmem, hcond.1, hcond.2⟩]
      have hpy : 0 < name.toList.length - 1 - afterLastDot name.toList ∧
          name.toList.length - 1 - afterLastDot name.toList + 1 <
            name.toList.length := by omega
      rw [if_pos hpy]
      have hidx : name.toList.length -
          (name.toList.length -
            (name.toList.length - 1 - afterLastDot name.toList)) =
          name.toList.length - 1 - afterLastDot name.toList := by omega
      rw [hidx]
    · rw [if_neg (by tauto)]
      have hpy : ¬ (0 < name.toList.length - 1 - afterLastDot name.toList ∧
          name.toList.length - 1 - afterLastDot name.toList + 1 <
            name.toList.length) := by omega
      rw [if_neg hpy]
      simp
  · obtain ⟨h1, h2⟩ := (lastDot_spec name.toList).2 hmem
    rw [h1]
    dsimp only
    rw [if_neg (by tauto)]
    simp

theorem substExt_eq_withSuffix (comps : List String) (ext : String) :
    substExt comps ext = withSuffix comps ext := by
  unfold substExt withSuffix
  cases comps.getLast? with
  | none => rfl
  | some c =>
      dsimp only
      rw [substExtName_eq_withSuffix]

theorem amendedProbe_eq_pyProbe (fs : List String) (candidate : List String) :
    amendedProbe fs candidate = pyProbe fs candidate := by
  unfold amendedProbe pyProbe
  simp only [substExt_eq_withSuffix]

theorem amendedResolveImportPathE_eq (fs : List String) (cf ip : String) :
    amendedResolveImportPathE fs cf ip = resolveImportPathE fs cf ip := by
  unfold amendedResolveImportPathE resolveImportPathE
  by_cases h1 : ¬ startsWithDot ip = true
  · rw [if_pos h1, if_pos h1]
  · rw [if_neg h1, if_neg h1]
    exact amendedProbe_eq_pyProbe fs _

theorem resolveImportsListE_eq_amended (fs : List String)
    (symtab : Dict FunctionDef) (fp cn : String) (imps : List ImportInfo) :
    resolveImportsListE fs symtab fp cn imps =
      amendedBindingsE fs symtab fp cn
        (imps.filter (fun imp => imp.name = cn)) := by
  induction imps with
  | nil => rfl
  | cons imp rest ih =>
      unfold resolveImportsListE
      by_cases h1 : imp.name = cn
      · rw [if_pos h1]
        have hf : (imp :: rest).filter (fun i => i.name = cn) =
            imp :: rest.filter (fun i => i.name = cn) := by
          simp [List.filter_cons, h1]
        rw [hf]
        unfold amendedBindingsE
        rw [amendedResolveImportPathE_eq fs fp imp.path]
        cases h2 : resolveImportPathE fs fp imp.path with
        | exn => rfl
        | ok o =>
            cases o with
            | none =>
                dsimp only
                exact ih
            | some p =>
                dsimp only
                by_cases h3 : dictMem symtab (nodeId p cn) = true
                · rw [if_pos h3, if_pos h3]
                · rw [if_neg h3, if_neg h3]
                  exact ih
      · rw [if_neg h1]
        have hf : (imp :: rest).filter (fun i => i.name = cn) =
            rest.filter (fun i => i.name = cn) := by
          simp [List.filter_cons, h1]
        rw [hf]
        exact ih

/-- C3 amended: `_resolve_call_via_imports` tries every binding whose
bound name matches, in order; per binding a non-relative specifier
fails, a relative specifier whose candidate resolves to the filesystem
root raises `ValueError` (propagated to the caller), and otherwise the
literal path, then `.js`/`.ts` substituted for an existing
final-component extension (appended only when there is none), then the
directory index files are probed; the first probe hitting an existing
file whose node is registered wins, and a merely failing binding does
not end resolution. -/
theorem c3_resolve_import_amended (fs : List String) (g : DependencyGraph)
    (fp cn : String) :
    resolveCallViaImportsE fs g fp cn = amendedResolveCallE fs g fp cn := by
  unfold resolveCallViaImportsE amendedResolveCallE
  exact resolveImportsListE_eq_amended fs g.symbol_table fp cn
    (dictGetD g.file_imports fp [])

/-! ### C8: order-independence of the two-phase build -/

theorem resolveCall_eq_callEdge (fs : List String) (g : DependencyGraph)
    (p : String) (c : FunctionCall) :
    resolveCall fs g p c =
      match callEdge fs g p c with
      | some uv => { g with graph := g.graph.addEdge uv.1 uv.2 }
      | none => g := by
  unfold resolveCall callEdge
  cases hE : findEnclosingFunction g p c.line with
  | none => rfl
  | some cn =>
      dsimp only
      by_cases hcn : cn = ""
      · rw [if_pos hcn, if_pos hcn]
      · rw [if_neg hcn, if_neg hcn]
        by_cases hl : (dictGetD g.file_functions p []).any
            (fun d => d.name = c.name) = true
        · rw [if_pos hl, if_pos hl]
          by_cases hn : g.graph.hasNode (nodeId p cn) = true ∧
              g.graph.hasNode (nodeId p c.name) = true
          · rw [if_pos hn, if_pos hn]
          · rw [if_neg hn, if_neg hn]
        · rw [if_neg hl, if_neg hl]
          cases hR : resolveCallViaImports fs g p c.name with
          | none => rfl
          | some r =>
              dsimp only
              by_cases hn : g.graph.hasNode (nodeId p cn) = true
              · rw [if_pos hn, if_pos hn]
              · rw [if_neg hn, if_neg hn]

theorem resolveCall_fields (fs : List String) (g : DependencyGraph)
    (p : String) (c : FunctionCall) :
    (resolveCall fs g p c).symbol_table = g.symbol_table ∧
    (resolveCall fs g p c).file_functions = g.file_functions ∧
    (resolveCall fs g p c).file_imports = g.file_imports ∧
    (resolveCall fs g p c).file_calls = g.file_calls := by
  rw [resolveCall_eq_callEdge]
  cases callEdge fs g p c with
  | none => exact ⟨rfl, rfl, rfl, rfl⟩
  | some uv => exact ⟨rfl, rfl, rfl, rfl⟩

theorem addEdge_mem_iff (g : DiGraph) (u v : String) (e : String × String) :
    e ∈ (g.addEdge u v).edges ↔ e = (u, v) ∨ e ∈ g.edges := by
  constructor
  · exact addEdge_edges_sub g u v e
  · rintro (h | h)
    · subst h; exact addEdge_self_mem g u v
    · exact addEdge_edges_mem g u v e h

theorem resolveCall_nodes_eq (fs : List String) (g : DependencyGraph)
    (p : String) (c : FunctionCall) (hM : Mirror g) (hE : EdgesOk g) :
    (resolveCall fs g p c).graph.nodes = g.graph.nodes := by
  have hM' := (resolveCall_mirror_edgesOk fs g p c hM hE).1
  have hsym := (resolveCall_fields fs g p c).1
  unfold Mirror at hM hM'
  rw [hM', hsym, hM]

theorem queryEquiv_refl (g : DependencyGraph) : QueryEquiv g g :=
  ⟨fun _ => Eq.refl _, fun _ => Eq.refl _, fun _ => Eq.refl _,
   fun _ => Eq.refl _⟩

theorem resolveImportsList_congr (fs : List String)
    (st1 st2 : Dict FunctionDef) (fp cn : String)
    (h : ∀ k, dictGet st1 k = dictGet st2 k) (imps : List ImportInfo) :
    resolveImportsList fs st1 fp cn imps =
      resolveImportsList fs st2 fp cn imps := by
  induction imps with
  | nil => rfl
  | cons imp rest ih =>
      unfold resolveImportsList
      by_cases h1 : imp.name = cn
      · rw [if_pos h1, if_pos h1]
        cases resolveImportPath fs fp imp.path with
        | none => exact ih
        | some p =>
            dsimp only
            have hm : dictMem st1 (nodeId p cn) = dictMem st2 (nodeId p cn) := by
              unfold dictMem
              rw [h]
            rw [hm, ih]
      · rw [if_neg h1, if_neg h1]
        exact ih

theorem callEdge_congr (fs : List String) (g1 g2 : DependencyGraph)
    (p : String) (c : FunctionCall) (h : QueryEquiv g1 g2) :
    callEdge fs g1 p c = callEdge fs g2 p c := by
  obtain ⟨hff, hfi, hst, hnd⟩ := h
  have hdff : dictGetD g1.file_functions p [] = dictGetD g2.file_functions p [] := by
    unfold dictGetD
    rw [hff]
  have hE : findEnclosingFunction g1 p c.line =
      findEnclosingFunction g2 p c.line := by
    unfold findEnclosingFunction
    rw [hdff]
  have hR : resolveCallViaImports fs g1 p c.name =
      resolveCallViaImports fs g2 p c.name := by
    unfold resolveCallViaImports
    have hdfi : dictGetD g1.file_imports p [] = dictGetD g2.file_imports p [] := by
      unfold dictGetD
      rw [hfi]
    rw [hdfi]
    exact resolveImportsList_congr fs _ _ p c.name hst _
  have hH : ∀ n, g1.graph.hasNode n = g2.graph.hasNode n := by
    intro n
    unfold DiGraph.hasNode dictMem
    rw [hnd]
  unfold callEdge
  rw [hE, hdff, hR]
  have hH1 := hH (nodeId p c.name)
  cases findEnclosingFunction g2 p c.line with
  | none => rfl
  | some cn =>
      dsimp only
      rw [hH (nodeId p cn), hH1]

theorem resolveCall_queryEquiv (fs : List String) (g g0 : DependencyGraph)
    (p : String) (c : FunctionCall) (hQ : QueryEquiv g g0) (hM : Mirror g)
    (hE : EdgesOk g) : QueryEquiv (resolveCall fs g p c) g0 := by
  obtain ⟨h1, h2, h3, h4⟩ := resolveCall_fields fs g p c
  have h5 := resolveCall_nodes_eq fs g p c hM hE
  exact ⟨fun k => by rw [h2]; exact hQ.1 k,
         fun k => by rw [h3]; exact hQ.2.1 k,
         fun k => by rw [h1]; exact hQ.2.2.1 k,
         fun k => by rw [h5]; exact hQ.2.2.2 k⟩

theorem resolveCalls_edges_iff (fs : List String) (g0 : DependencyGraph)
    (p : String) (cs : List FunctionCall) :
    ∀ g, QueryEquiv g g0 → Mirror g → EdgesOk g →
    (∀ e, e ∈ (resolveCalls fs g p cs).graph.edges ↔
        e ∈ g.graph.edges ∨ ∃ c ∈ cs, callEdge fs g0 p c = some e) ∧
    QueryEquiv (resolveCalls fs g p cs) g0 ∧
    Mirror (resolveCalls fs g p cs) ∧ EdgesOk (resolveCalls fs g p cs) := by
  induction cs with
  | nil =>
      intro g hQ hM hE
      refine ⟨fun e => ?_, hQ, hM, hE⟩
      simp [resolveCalls]
  | cons c cs ih =>
      intro g hQ hM hE
      have hstep : resolveCalls fs g p (c :: cs) =
          resolveCalls fs (resolveCall fs g p c) p cs := rfl
      have hQ' := resolveCall_queryEquiv fs g g0 p c hQ hM hE
      have hME' := resolveCall_mirror_edgesOk fs g p c hM hE
      obtain ⟨hiff, hQ'', hM'', hE''⟩ := ih (resolveCall fs g p c) hQ' hME'.1 hME'.2
      rw [hstep]
      refine ⟨fun e => ?_, hQ'', hM'', hE''⟩
      rw [hiff e]
      have hce : callEdge fs g p c = callEdge fs g0 p c :=
        callEdge_congr fs g g0 p c hQ
      rw [resolveCall_eq_callEdge fs g p c]
      cases hc : callEdge fs g p c with
      | none =>
          rw [hc] at hce
          simp only [List.mem_cons]
          constructor
          · rintro (h | ⟨c', hc', he'⟩)
            · exact Or.inl h
            · exact Or.inr ⟨c', Or.inr hc', he'⟩
          · rintro (h | ⟨c', hc' | hc', he'⟩)
            · exact Or.inl h
            · subst hc'
              rw [← hce] at he'
              cases he'
            · exact Or.inr ⟨c', hc', he'⟩
      | some uv =>
          rw [hc] at hce
          simp only [List.mem_cons]
          constructor
          · rintro (h | ⟨c', hc', he'⟩)
            · rcases (addEdge_mem_iff g.graph uv.1 uv.2 e).mp h with h | h
              · refine Or.inr ⟨c, Or.inl rfl, ?_⟩
                rw [h]
                exact hce.symm
              · exact Or.inl h
            · exact Or.inr ⟨c', Or.inr hc', he'⟩
          · rintro (h | ⟨c', hc' | hc', he'⟩)
            · exact Or.inl ((addEdge_mem_iff g.graph uv.1 uv.2 e).mpr (Or.inr h))
            · subst hc'
              rw [← hce] at he'
              have h' : uv = e := Option.some.inj he'
              exact Or.inl ((addEdge_mem_iff g.graph uv.1 uv.2 e).mpr
                (Or.inl h'.symm))
            · exact Or.inr ⟨c', hc', he'⟩

theorem getLast?_cons_eq {α : Type} (a : α) (l : List α) :
    (a :: l).getLast? = some (l.getLast?.getD a) := by
  induction l generalizing a with
  | nil => rfl
  | cons b l ih =>
      rw [List.getLast?_cons_cons, ih b]
      simp

theorem registerDef_fold_fields (p : String) (ds : List FunctionDef) :
    ∀ g : DependencyGraph,
    (ds.foldl (registerDef p) g).file_functions = g.file_functions ∧
    (ds.foldl (registerDef p) g).file_calls = g.file_calls ∧
    (ds.foldl (registerDef p) g).file_imports = g.file_imports ∧
    (ds.foldl (registerDef p) g).graph.edges = g.graph.edges ∧
    (ds.foldl (registerDef p) g).symbol_table =
      ds.foldl (fun st d => dictInsert st (nodeId p d.name) d)
        g.symbol_table := by
  induction ds with
  | nil => intro g; exact ⟨rfl, rfl, rfl, rfl, rfl⟩
  | cons d ds ih =>
      intro g
      simp only [List.foldl]
      obtain ⟨h1, h2, h3, h4, h5⟩ := ih (registerDef p g d)
      exact ⟨h1, h2, h3, h4, h5⟩

theorem registerFile_fields (g : DependencyGraph) (f : FileFacts) :
    (registerFile g f).file_functions =
      dictInsert g.file_functions f.path f.defs ∧
    (registerFile g f).file_calls =
      dictInsert g.file_calls f.path f.calls ∧
    (registerFile g f).file_imports =
      dictInsert g.file_imports f.path f.imports ∧
    (registerFile g f).symbol_table =
      f.defs.foldl (fun st d => dictInsert st (nodeId f.path d.name) d)
        g.symbol_table := by
  unfold registerFile
  obtain ⟨h1, h2, h3, _, h5⟩ := registerDef_fold_fields f.path f.defs
    { g with
      file_functions := dictInsert g.file_functions f.path f.defs
      file_calls := dictInsert g.file_calls f.path f.calls
      file_imports := dictInsert g.file_imports f.path f.imports }
  exact ⟨h1, h2, h3, h5⟩

theorem foldl_insert_get (p : String) (ds : List FunctionDef) :
    ∀ (st : Dict FunctionDef) (k : String),
    dictGet (ds.foldl (fun st d => dictInsert st (nodeId p d.name) d) st) k =
      match (ds.filter (fun d => nodeId p d.name = k)).getLast? with
      | some d => some d
      | none => dictGet st k := by
  induction ds with
  | nil => intro st k; rfl
  | cons d ds ih =>
      intro st k
      simp only [List.foldl]
      rw [ih]
      by_cases hd : nodeId p d.name = k
      · rw [List.filter_cons_of_pos (by simpa using hd), getLast?_cons_eq]
        cases hl : (ds.filter (fun d => nodeId p d.name = k)).getLast? with
        | some d' =>
            dsimp only
            rfl
        | none =>
            dsimp only
            rw [dictGet_insert, if_pos hd.symm]
            rfl
      · rw [List.filter_cons_of_neg (by simpa using hd)]
        cases hl : (ds.filter (fun d => nodeId p d.name = k)).getLast? with
        | some d' => rfl
        | none =>
            dsimp only
            rw [dictGet_insert, if_neg (fun hh => hd hh.symm)]

theorem symLookupRev_cons (f : FileFacts) (rest : List FileFacts)
    (k : String) :
    symLookupRev (f :: rest) k =
      match symLookupRev rest k with
      | some d => some d
      | none => fileSym f k := rfl

theorem lastFile_cons (f : FileFacts) (rest : List FileFacts) (p : String) :
    lastFile (f :: rest) p =
      match lastFile rest p with
      | some f' => some f'
      | none => if f.path = p then some f else none := rfl

theorem registerFile_symtab_get (g : DependencyGraph) (f : FileFacts)
    (k : String) :
    dictGet (registerFile g f).symbol_table k =
      match fileSym f k with
      | some d => some d
      | none => dictGet g.symbol_table k := by
  rw [(registerFile_fields g f).2.2.2, foldl_insert_get]
  rfl

theorem phase1_symtab_get (l : List FileFacts) :
    ∀ (g : DependencyGraph) (k : String),
    dictGet (buildPhase1 g l).symbol_table k =
      match symLookupRev l k with
      | some d => some d
      | none => dictGet g.symbol_table k := by
  induction l with
  | nil => intro g k; rfl
  | cons f rest ih =>
      intro g k
      have hstep : buildPhase1 g (f :: rest) =
          buildPhase1 (registerFile g f) rest := rfl
      rw [hstep, ih, registerFile_symtab_get, symLookupRev_cons]
      cases symLookupRev rest k with
      | some d => rfl
      | none => rfl

theorem phase1_ff_get (l : List FileFacts) :
    ∀ (g : DependencyGraph) (p : String),
    dictGet (buildPhase1 g l).file_functions p =
      match lastFile l p with
      | some f => some f.defs
      | none => dictGet g.file_functions p := by
  induction l with
  | nil => intro g p; rfl
  | cons f rest ih =>
      intro g p
      have hstep : buildPhase1 g (f :: rest) =
          buildPhase1 (registerFile g f) rest := rfl
      rw [hstep, ih, lastFile_cons]
      cases lastFile rest p with
      | some f' => rfl
      | none =>
          dsimp only
          rw [(registerFile_fields g f).1, dictGet_insert]
          by_cases hp : p = f.path
          · rw [if_pos hp, if_pos hp.symm]
          · rw [if_neg hp, if_neg (fun hh => hp hh.symm)]

theorem phase1_fi_get (l : List FileFacts) :
    ∀ (g : DependencyGraph) (p : String),
    dictGet (buildPhase1 g l).file_imports p =
      match lastFile l p with
      | some f => some f.imports
      | none => dictGet g.file_imports p := by
  induction l with
  | nil => intro g p; rfl
  | cons f rest ih =>
      intro g p
      have hstep : buildPhase1 g (f :: rest) =
          buildPhase1 (registerFile g f) rest := rfl
      rw [hstep, ih, lastFile_cons]
      cases lastFile rest p with
      | some f' => rfl
      | none =>
          dsimp only
          rw [(registerFile_fields g f).2.2.1, dictGet_insert]
          by_cases hp : p = f.path
          · rw [if_pos hp, if_pos hp.symm]
          · rw [if_neg hp, if_neg (fun hh => hp hh.symm)]

theorem phase1_edges (l : List FileFacts) :
    ∀ g : DependencyGraph,
    (buildPhase1 g l).graph.edges = g.graph.edges := by
  induction l with
  | nil => intro g; rfl
  | cons f rest ih =>
      intro g
      have hstep : buildPhase1 g (f :: rest) =
          buildPhase1 (registerFile g f) rest := rfl
      rw [hstep, ih, registerFile_edges]

theorem dictInsert_fresh {α : Type} (st : Dict α) (k : String) (v : α)
    (h : dictGet st k = none) : dictInsert st k v = st ++ [(k, v)] := by
  induction st with
  | nil => rfl
  | cons hd tl ih =>
      obtain ⟨k₀, v₀⟩ := hd
      unfold dictGet at h
      by_cases h0 : k₀ = k
      · rw [if_pos h0] at h
        cases h
      · rw [if_neg h0] at h
        simp only [dictInsert, if_neg h0]
        rw [ih h]
        rfl

theorem phase1_fc_list (l : List FileFacts) :
    ∀ g : DependencyGraph,
    (∀ f ∈ l, dictGet g.file_calls f.path = none) →
    (l.map (fun f => f.path)).Nodup →
    (buildPhase1 g l).file_calls =
      g.file_calls ++ l.map (fun f => (f.path, f.calls)) := by
  induction l with
  | nil => intro g _ _; simp [buildPhase1]
  | cons f rest ih =>
      intro g hfresh hnodup
      have hstep : buildPhase1 g (f :: rest) =
          buildPhase1 (registerFile g f) rest := rfl
      rw [hstep]
      have hfc : (registerFile g f).file_calls =
          g.file_calls ++ [(f.path, f.calls)] := by
        rw [(registerFile_fields g f).2.1,
          dictInsert_fresh _ _ _ (hfresh f (List.mem_cons_self _ _))]
      rw [List.map_cons] at hnodup
      have hnd := List.nodup_cons.mp hnodup
      have hfresh' : ∀ f' ∈ rest,
          dictGet (registerFile g f).file_calls f'.path = none := by
        intro f' hf'
        rw [hfc, dictGet_append]
        rw [hfresh f' (List.mem_cons_of_mem _ hf')]
        have hne : f.path ≠ f'.path := by
          intro hh
          exact hnd.1 (by
            rw [hh]
            exact List.mem_map_of_mem (fun f => f.path) hf')
        simp [dictGet, hne]
      rw [ih (registerFile g f) hfresh' hnd.2, hfc]
      simp

theorem find?_unique {α : Type} (p : α → Bool) {l1 l2 : List α}
    (hperm : l1.Perm l2)
    (huniq : ∀ a ∈ l1, ∀ b ∈ l1, p a = true → p b = true → a = b) :
    l1.find? p = l2.find? p := by
  cases h1 : l1.find? p with
  | none =>
      cases h2 : l2.find? p with
      | none => rfl
      | some b =>
          rw [List.find?_eq_none] at h1
          exact absurd (List.find?_some h2)
            (h1 b (hperm.mem_iff.mpr (List.mem_of_find?_eq_some h2)))
  | some a =>
      cases h2 : l2.find? p with
      | none =>
          rw [List.find?_eq_none] at h2
          exact absurd (List.find?_some h1)
            (h2 a (hperm.mem_iff.mp (List.mem_of_find?_eq_some h1)))
      | some b =>
          rw [huniq a (List.mem_of_find?_eq_some h1) b
            (hperm.mem_iff.mpr (List.mem_of_find?_eq_some h2))
            (List.find?_some h1) (List.find?_some h2)]

theorem lastFile_eq_find? (l : List FileFacts) (p : String)
    (hnodup : (l.map (fun f => f.path)).Nodup) :
    lastFile l p = l.find? (fun f => f.path = p) := by
  induction l with
  | nil => rfl
  | cons f rest ih =>
      rw [List.map_cons] at hnodup
      have hnd := List.nodup_cons.mp hnodup
      rw [lastFile_cons, ih hnd.2]
      cases hfind : rest.find? (fun f => f.path = p) with
      | some f' =>
          have hf' : f'.path = p := by simpa using List.find?_some hfind
          have hmem := List.mem_of_find?_eq_some hfind
          have hne : ¬ (f.path = p) := by
            intro hh
            refine hnd.1 ?_
            rw [hh, ← hf']
            exact List.mem_map_of_mem _ hmem
          rw [List.find?_cons_of_neg _ (by simpa using hne), hfind]
      | none =>
          by_cases hp : f.path = p
          · rw [List.find?_cons_of_pos _ (by simpa using hp)]
            dsimp only
            rw [if_pos hp]
          · rw [List.find?_cons_of_neg _ (by simpa using hp), hfind]
            dsimp only
            rw [if_neg hp]

theorem fileSym_eq_none (f : FileFacts) (k : String)
    (h : ownsKey k f = false) : fileSym f k = none := by
  unfold fileSym
  unfold ownsKey at h
  rw [List.any_eq_false] at h
  rw [List.filter_eq_nil_iff.mpr h]
  rfl

theorem symLookupRev_none (l : List FileFacts) (k : String)
    (h : ∀ f ∈ l, ownsKey k f = false) : symLookupRev l k = none := by
  induction l with
  | nil => rfl
  | cons f rest ih =>
      rw [symLookupRev_cons,
        ih (fun f' hf' => h f' (List.mem_cons_of_mem _ hf'))]
      exact fileSym_eq_none f k (h f (List.mem_cons_self _ _))

theorem symLookupRev_eq_find? (l : List FileFacts) (k : String)
    (hnodup : (l.map (fun f => f.path)).Nodup)
    (hkeys : ∀ f1 ∈ l, ∀ f2 ∈ l, ∀ d1 ∈ f1.defs, ∀ d2 ∈ f2.defs,
        nodeId f1.path d1.name = nodeId f2.path d2.name →
          f1.path = f2.path) :
    symLookupRev l k =
      (l.find? (ownsKey k)).bind (fun f => fileSym f k) := by
  induction l with
  | nil => rfl
  | cons f rest ih =>
      rw [List.map_cons] at hnodup
      have hnd := List.nodup_cons.mp hnodup
      have hkeys' : ∀ f1 ∈ rest, ∀ f2 ∈ rest, ∀ d1 ∈ f1.defs,
          ∀ d2 ∈ f2.defs,
          nodeId f1.path d1.name = nodeId f2.path d2.name →
            f1.path = f2.path :=
        fun f1 h1 f2 h2 => hkeys f1 (List.mem_cons_of_mem _ h1) f2
          (List.mem_cons_of_mem _ h2)
      rw [symLookupRev_cons, ih hnd.2 hkeys']
      by_cases hf : ownsKey k f = true
      · have hrest : ∀ f' ∈ rest, ownsKey k f' = false := by
          intro f' hf'
          by_contra hc
          rw [Bool.not_eq_false] at hc
          obtain ⟨d, hd, hdk⟩ := List.any_eq_true.mp hf
          obtain ⟨d', hd', hdk'⟩ := List.any_eq_true.mp hc
          have hdk2 : nodeId f.path d.name = k := by simpa using hdk
          have hdk2' : nodeId f'.path d'.name = k := by simpa using hdk'
          have hpp : f.path = f'.path :=
            hkeys f (List.mem_cons_self _ _) f'
              (List.mem_cons_of_mem _ hf') d hd d' hd'
              (by rw [hdk2, hdk2'])
          refine hnd.1 ?_
          rw [hpp]
          exact List.mem_map_of_mem _ hf'
        have h0 : rest.find? (ownsKey k) = none :=
          List.find?_eq_none.mpr (fun x hx => by simp [hrest x hx])
        rw [h0, List.find?_cons_of_pos _ hf]
        rfl
      · have hf0 : ownsKey k f = false := by simpa using hf
        rw [List.find?_cons_of_neg _ (by simp [hf0])]
        cases hX : (rest.find? (ownsKey k)).bind (fun f => fileSym f k) with
        | some d => rfl
        | none =>
            dsimp only
            exact fileSym_eq_none f k hf0

theorem phase1_mirror (l : List FileFacts) (g : DependencyGraph)
    (hM : Mirror g) : Mirror (buildPhase1 g l) :=
  foldl_preserves Mirror registerFile
    (fun g f h => registerFile_mirror g f h) l g hM

theorem phase1_edgesOk (l : List FileFacts) (g : DependencyGraph)
    (hE : EdgesOk g) : EdgesOk (buildPhase1 g l) :=
  foldl_preserves EdgesOk registerFile
    (fun g f h => registerFile_edgesOk g f h) l g hE

theorem foldResolve_edges_iff (fs : List String) (g0 : DependencyGraph)
    (L : List (String × List FunctionCall)) :
    ∀ g, QueryEquiv g g0 → Mirror g → EdgesOk g →
    (∀ e, e ∈ (L.foldl (fun g pc => resolveCalls fs g pc.1 pc.2)
          g).graph.edges ↔
        e ∈ g.graph.edges ∨ ∃ pc ∈ L, ∃ c ∈ pc.2,
          callEdge fs g0 pc.1 c = some e) ∧
    QueryEquiv (L.foldl (fun g pc => resolveCalls fs g pc.1 pc.2) g) g0 := by
  induction L with
  | nil =>
      intro g hQ _ _
      exact ⟨fun e => by simp, hQ⟩
  | cons pc L ih =>
      intro g hQ hM hE
      obtain ⟨hiff1, hQ1, hM1, hE1⟩ :=
        resolveCalls_edges_iff fs g0 pc.1 pc.2 g hQ hM hE
      obtain ⟨hiff2, hQ2⟩ := ih (resolveCalls fs g pc.1 pc.2) hQ1 hM1 hE1
      refine ⟨fun e => ?_, hQ2⟩
      simp only [List.foldl]
      rw [hiff2 e, hiff1 e]
      simp only [List.mem_cons]
      constructor
      · rintro ((h | ⟨c, hc, he⟩) | ⟨pc', hpc', c, hc, he⟩)
        · exact Or.inl h
        · exact Or.inr ⟨pc, Or.inl rfl, c, hc, he⟩
        · exact Or.inr ⟨pc', Or.inr hpc', c, hc, he⟩
      · rintro (h | ⟨pc', hpc' | hpc', c, hc, he⟩)
        · exact Or.inl (Or.inl h)
        · subst hpc'
          exact Or.inl (Or.inr ⟨c, hc, he⟩)
        · exact Or.inr ⟨pc', hpc', c, hc, he⟩

theorem phase2_edges_iff (fs : List String) (g0 : DependencyGraph)
    (hM : Mirror g0) (hE : EdgesOk g0) :
    (∀ e, e ∈ (buildPhase2 fs g0).graph.edges ↔
        e ∈ g0.graph.edges ∨ ∃ pc ∈ g0.file_calls, ∃ c ∈ pc.2,
          callEdge fs g0 pc.1 c = some e) ∧
    QueryEquiv (buildPhase2 fs g0) g0 :=
  foldResolve_edges_iff fs g0 g0.file_calls g0 (queryEquiv_refl g0) hM hE

/-- C8: building from the same fact set in any permutation of the
per-file processing order yields a graph with the same node map, symbol
table and edge set.  The hypotheses are well-formedness of the input
facts: a directory walk never yields the same file path twice, and two
distinct files never collide on a `"path:name"` node id (JS identifiers
contain no `:`). -/
theorem c8_build_order_independent (fs : List String)
    (l1 l2 : List FileFacts) (hperm : l1.Perm l2)
    (hnodup : (l1.map (fun f => f.path)).Nodup)
    (hkeys : ∀ f1 ∈ l1, ∀ f2 ∈ l1, ∀ d1 ∈ f1.defs, ∀ d2 ∈ f2.defs,
        nodeId f1.path d1.name = nodeId f2.path d2.name →
          f1.path = f2.path) :
    (∀ n, dictGet (buildGraph fs DependencyGraph.init l1).graph.nodes n =
          dictGet (buildGraph fs DependencyGraph.init l2).graph.nodes n) ∧
    (∀ k, dictGet (buildGraph fs DependencyGraph.init l1).symbol_table k =
          dictGet (buildGraph fs DependencyGraph.init l2).symbol_table k) ∧
    (∀ e, e ∈ (buildGraph fs DependencyGraph.init l1).graph.edges ↔
          e ∈ (buildGraph fs DependencyGraph.init l2).graph.edges) := by
  have hpmap := hperm.map (fun f => f.path)
  have hnodup2 : (l2.map (fun f => f.path)).Nodup :=
    hpmap.nodup_iff.mp hnodup
  have hkeys2 : ∀ f1 ∈ l2, ∀ f2 ∈ l2, ∀ d1 ∈ f1.defs, ∀ d2 ∈ f2.defs,
      nodeId f1.path d1.name = nodeId f2.path d2.name →
        f1.path = f2.path :=
    fun f1 h1 f2 h2 => hkeys f1 (hperm.mem_iff.mpr h1) f2
      (hperm.mem_iff.mpr h2)
  have hinj := List.inj_on_of_nodup_map hnodup
  -- phase-1 states
  have hM1 : Mirror (buildPhase1 DependencyGraph.init l1) :=
    phase1_mirror l1 DependencyGraph.init rfl
  have hM2 : Mirror (buildPhase1 DependencyGraph.init l2) :=
    phase1_mirror l2 DependencyGraph.init rfl
  have hE1 : EdgesOk (buildPhase1 DependencyGraph.init l1) :=
    phase1_edgesOk l1 DependencyGraph.init
      (fun e he => absurd he (List.not_mem_nil e))
  have hE2 : EdgesOk (buildPhase1 DependencyGraph.init l2) :=
    phase1_edgesOk l2 DependencyGraph.init
      (fun e he => absurd he (List.not_mem_nil e))
  -- the last (= unique) file with a given path is permutation-invariant
  have hlast : ∀ p, lastFile l1 p = lastFile l2 p := by
    intro p
    rw [lastFile_eq_find? l1 p hnodup, lastFile_eq_find? l2 p hnodup2]
    refine find?_unique _ hperm ?_
    intro a ha b hb hpa hpb
    have hpa' : a.path = p := by simpa using hpa
    have hpb' : b.path = p := by simpa using hpb
    exact hinj ha hb (by rw [hpa', hpb'])
  -- the unique owner of a symbol key is permutation-invariant
  have hsymrev : ∀ k, symLookupRev l1 k = symLookupRev l2 k := by
    intro k
    rw [symLookupRev_eq_find? l1 k hnodup hkeys,
      symLookupRev_eq_find? l2 k hnodup2 hkeys2]
    congr 1
    refine find?_unique _ hperm ?_
    intro a ha b hb hpa hpb
    obtain ⟨da, hda, hdka⟩ := List.any_eq_true.mp hpa
    obtain ⟨db, hdb, hdkb⟩ := List.any_eq_true.mp hpb
    have hdka' : nodeId a.path da.name = k := by simpa using hdka
    have hdkb' : nodeId b.path db.name = k := by simpa using hdkb
    have hpp : a.path = b.path :=
      hkeys a ha b hb da hda db hdb (by rw [hdka', hdkb'])
    exact hinj ha hb hpp
  -- symbol tables of the phase-1 states agree pointwise
  have hsym : ∀ k,
      dictGet (buildPhase1 DependencyGraph.init l1).symbol_table k =
      dictGet (buildPhase1 DependencyGraph.init l2).symbol_table k := by
    intro k
    rw [phase1_symtab_get, phase1_symtab_get, hsymrev k]
  -- node stores agree pointwise (via Mirror)
  have hnodes : ∀ n,
      dictGet (buildPhase1 DependencyGraph.init l1).graph.nodes n =
      dictGet (buildPhase1 DependencyGraph.init l2).graph.nodes n := by
    intro n
    rw [hM1, hM2, dictGet_map_some, dictGet_map_some, hsym n]
  -- all queryable stores agree
  have hQ12 : QueryEquiv (buildPhase1 DependencyGraph.init l1)
      (buildPhase1 DependencyGraph.init l2) := by
    refine ⟨fun p => ?_, fun p => ?_, hsym, hnodes⟩
    · rw [phase1_ff_get, phase1_ff_get, hlast p]
    · rw [phase1_fi_get, phase1_fi_get, hlast p]
  -- file_calls stores are the input lists
  have hfc1 : (buildPhase1 DependencyGraph.init l1).file_calls =
      l1.map (fun f => (f.path, f.calls)) := by
    rw [phase1_fc_list l1 DependencyGraph.init (fun f _ => rfl) hnodup]
    rfl
  have hfc2 : (buildPhase1 DependencyGraph.init l2).file_calls =
      l2.map (fun f => (f.path, f.calls)) := by
    rw [phase1_fc_list l2 DependencyGraph.init (fun f _ => rfl) hnodup2]
    rfl
  -- phase 2 on both sides
  obtain ⟨hiff1, hQf1⟩ :=
    phase2_edges_iff fs (buildPhase1 DependencyGraph.init l1) hM1 hE1
  obtain ⟨hiff2, hQf2⟩ :=
    phase2_edges_iff fs (buildPhase1 DependencyGraph.init l2) hM2 hE2
  refine ⟨fun n => ?_, fun k => ?_, fun e => ?_⟩
  · unfold buildGraph
    rw [hQf1.2.2.2 n, hQf2.2.2.2 n]
    exact hnodes n
  · unfold buildGraph
    rw [hQf1.2.2.1 k, hQf2.2.2.1 k]
    exact hsym k
  · show e ∈ (buildPhase2 fs (buildPhase1 DependencyGraph.init l1)).graph.edges
      ↔ e ∈ (buildPhase2 fs (buildPhase1 DependencyGraph.init l2)).graph.edges
    rw [hiff1 e, hiff2 e, phase1_edges, phase1_edges]
    have hce : ∀ p c, callEdge fs (buildPhase1 DependencyGraph.init l1) p c =
        callEdge fs (buildPhase1 DependencyGraph.init l2) p c :=
      fun p c => callEdge_congr fs _ _ p c hQ12
    rw [hfc1, hfc2]
    have hpcperm := hperm.map (fun f => (f.path, f.calls))
    constructor
    · rintro (h | ⟨pc, hpc, c, hc, he⟩)
      · exact absurd h (List.not_mem_nil e)
      · exact Or.inr ⟨pc, hpcperm.mem_iff.mp hpc, c, hc,
          by rw [← hce pc.1 c]; exact he⟩
    · rintro (h | ⟨pc, hpc, c, hc, he⟩)
      · exact absurd h (List.not_mem_nil e)
      · exact Or.inr ⟨pc, hpcperm.mem_iff.mpr hpc, c, hc,
          by rw [hce pc.1 c]; exact he⟩

/-- Witness for C8: the cross-file edge `x → y` exists regardless of
which of the two files is processed first. -/
theorem c8_build_order_independent_witness :
    ("/w/x.js:x", "/w/y.js:y") ∈
      (buildGraph ["/w/y.js"] DependencyGraph.init
        [fileX, fileY]).graph.edges ↔
    ("/w/x.js:x", "/w/y.js:y") ∈
      (buildGraph ["/w/y.js"] DependencyGraph.init
        [fileY, fileX]).graph.edges :=
  (c8_build_order_independent ["/w/y.js"] [fileX, fileY] [fileY, fileX]
    (by decide) (by decide) (by decide)).2.2
    ("/w/x.js:x", "/w/y.js:y")

/-! ### Agreement of the exception-aware layer with the total layer -/

theorem resolveImportPathE_ok (fs : List String) (cf ip : String)
    (r : Option String) (h : resolveImportPathE fs cf ip = PyResult.ok r) :
    resolveImportPath fs cf ip = r := by
  unfold resolveImportPathE pyProbe at h
  unfold resolveImportPath
  by_cases h1 : ¬ startsWithDot ip = true
  · rw [if_pos h1] at h
    rw [if_pos h1]
    exact PyResult.ok.inj h
  · rw [if_neg h1] at h
    rw [if_neg h1]
    by_cases h2 : normalizeComponents
        ((pathComponents cf).dropLast ++ splitSlash ip) = []
    · rw [if_pos h2] at h
      exact PyResult.noConfusion h
    · rw [if_neg h2] at h
      exact PyResult.ok.inj h

theorem resolveImportsListE_ok (fs : List String) (symtab : Dict FunctionDef)
    (fp cn : String) (imps : List ImportInfo) (r : Option String)
    (h : resolveImportsListE fs symtab fp cn imps = PyResult.ok r) :
    resolveImportsList fs symtab fp cn imps = r := by
  revert h
  induction imps generalizing r with
  | nil =>
      intro h
      exact PyResult.ok.inj h
  | cons imp rest ih =>
      intro h
      unfold resolveImportsListE at h
      unfold resolveImportsList
      by_cases h1 : imp.name = cn
      · rw [if_pos h1] at h
        rw [if_pos h1]
        cases h2 : resolveImportPathE fs fp imp.path with
        | exn =>
            rw [h2] at h
            exact PyResult.noConfusion h
        | ok o =>
            rw [h2] at h
            rw [resolveImportPathE_ok fs fp imp.path o h2]
            cases o with
            | none =>
                dsimp only at h ⊢
                exact ih r h
            | some p =>
                dsimp only at h ⊢
                by_cases h3 : dictMem symtab (nodeId p cn) = true
                · rw [if_pos h3] at h
                  rw [if_pos h3]
                  exact PyResult.ok.inj h
                · rw [if_neg h3] at h
                  rw [if_neg h3]
                  exact ih r h
      · rw [if_neg h1] at h
        rw [if_neg h1]
        exact ih r h

theorem resolveCallViaImportsE_ok (fs : List String) (g : DependencyGraph)
    (fp cn : String) (r : Option String)
    (h : resolveCallViaImportsE fs g fp cn = PyResult.ok r) :
    resolveCallViaImports fs g fp cn = r := by
  unfold resolveCallViaImportsE at h
  unfold resolveCallViaImports
  exact resolveImportsListE_ok fs g.symbol_table fp cn
    (dictGetD g.file_imports fp []) r h

theorem resolveCallE_ok (fs : List String) (g : DependencyGraph)
    (fp : String) (c : FunctionCall) (g' : DependencyGraph)
    (h : resolveCallE fs g fp c = PyResult.ok g') :
    resolveCall fs g fp c = g' := by
  unfold resolveCallE at h
  unfold resolveCall
  cases hE : findEnclosingFunction g fp c.line with
  | none =>
      rw [hE] at h
      exact PyResult.ok.inj h
  | some cn =>
      rw [hE] at h
      dsimp only at h ⊢
      by_cases h1 : cn = ""
      · rw [if_pos h1] at h
        rw [if_pos h1]
        exact PyResult.ok.inj h
      · rw [if_neg h1] at h
        rw [if_neg h1]
        by_cases h2 : ((dictGetD g.file_functions fp []).any
            (fun d => d.name = c.name)) = true
        · rw [if_pos h2] at h
          rw [if_pos h2]
          exact PyResult.ok.inj h
        · rw [if_neg h2] at h
          rw [if_neg h2]
          cases h3 : resolveCallViaImportsE fs g fp c.name with
          | exn =>
              rw [h3] at h
              exact PyResult.noConfusion h
          | ok o =>
              rw [h3] at h
              rw [resolveCallViaImportsE_ok fs g fp c.name o h3]
              cases o with
              | none =>
                  dsimp only at h ⊢
                  exact PyResult.ok.inj h
              | some rr =>
                  dsimp only at h ⊢
                  exact PyResult.ok.inj h

theorem foldPy_ok {α β : Type} (stepE : α → β → PyResult α)
    (step : α → β → α)
    (hstep : ∀ a b a1, stepE a b = PyResult.ok a1 → step a b = a1)
    (l : List β) (a a2 : α) (h : foldPy stepE l a = PyResult.ok a2) :
    l.foldl step a = a2 := by
  revert h
  induction l generalizing a with
  | nil =>
      intro h
      exact PyResult.ok.inj h
  | cons b bs ih =>
      intro h
      cases hs : stepE a b with
      | exn =>
          rw [foldPy_cons_exn stepE b bs a hs] at h
          exact PyResult.noConfusion h
      | ok a1 =>
          rw [foldPy_cons_ok stepE b bs a a1 hs] at h
          simp only [List.foldl]
          rw [hstep a b a1 hs]
          exact ih a1 h

theorem resolveCallsE_ok (fs : List String) (g : DependencyGraph)
    (fp : String) (cs : List FunctionCall) (g' : DependencyGraph)
    (h : resolveCallsE fs g fp cs = PyResult.ok g') :
    resolveCalls fs g fp cs = g' := by
  unfold resolveCallsE at h
  unfold resolveCalls
  exact foldPy_ok _ _ (fun a c a1 hh => resolveCallE_ok fs a fp c a1 hh)
    cs g g' h

theorem buildGraphE_ok (fs : List String) (g : DependencyGraph)
    (files : List FileFacts) (g' : DependencyGraph)
    (h : buildGraphE fs g files = PyResult.ok g') :
    buildGraph fs g files = g' := by
  unfold buildGraphE buildPhase2E at h
  unfold buildGraph buildPhase2
  exact foldPy_ok _ _
    (fun a pc a1 hh => resolveCallsE_ok fs a pc.1 pc.2 a1 hh)
    (buildPhase1 g files).file_calls (buildPhase1 g files) g' h

theorem resolveCandidateE_ok (fs : List String) (g : DependencyGraph)
    (fp cn : String) (r : Option String)
    (h : resolveCandidateE fs g fp cn = PyResult.ok r) :
    resolveCandidate fs g fp cn = r := by
  unfold resolveCandidateE at h
  unfold resolveCandidate
  by_cases h1 : dictMem g.symbol_table (nodeId fp cn) = true
  · rw [if_pos h1] at h
    rw [if_pos h1]
    exact PyResult.ok.inj h
  · rw [if_neg h1] at h
    rw [if_neg h1]
    exact resolveCallViaImportsE_ok fs g fp cn r h

theorem routeStepE_ok (fs : List String) (g : DependencyGraph)
    (fp : String) (depth : Nat) (acc : List String × List FunctionDef)
    (c : FunctionCall) (acc' : List String × List FunctionDef)
    (h : routeStepE fs g fp depth acc c = PyResult.ok acc') :
    routeStep fs g fp depth acc c = acc' := by
  unfold routeStepE at h
  unfold routeStep
  cases hr : resolveCandidateE fs g fp c.name with
  | exn =>
      rw [hr] at h
      exact PyResult.noConfusion h
  | ok o =>
      rw [hr] at h
      rw [resolveCandidateE_ok fs g fp c.name o hr]
      cases o with
      | none =>
          dsimp only at h ⊢
          exact PyResult.ok.inj h
      | some cid =>
          dsimp only at h ⊢
          exact PyResult.ok.inj h

theorem routeContextDefsE_ok (fs : List String) (g : DependencyGraph)
    (route : RouteInfo) (depth : Nat) (ds : List FunctionDef)
    (h : routeContextDefsE fs g route depth = PyResult.ok ds) :
    routeContextDefs fs g route depth = ds := by
  unfold routeContextDefsE at h
  unfold routeContextDefs
  cases hf : foldPy (routeStepE fs g route.file_path depth)
      (callsInHandler g route) ([], []) with
  | exn =>
      rw [hf] at h
      exact PyResult.noConfusion h
  | ok acc =>
      rw [hf] at h
      dsimp only at h
      have h4 : acc.2 = ds := PyResult.ok.inj h
      rw [foldPy_ok (routeStepE fs g route.file_path depth)
        (routeStep fs g route.file_path depth)
        (fun a c a1 hh => routeStepE_ok fs g route.file_path depth a c a1 hh)
        (callsInHandler g route) ([], []) acc hf]
      exact h4

theorem getRouteContextE_ok (fs : List String) (g : DependencyGraph)
    (route : RouteInfo) (depth : Nat) (s : String)
    (h : getRouteContextE fs g route depth = PyResult.ok s) :
    getRouteContext fs g route depth = s := by
  unfold getRouteContextE at h
  unfold getRouteContext
  cases hd : routeContextDefsE fs g route depth with
  | exn =>
      rw [hd] at h
      exact PyResult.noConfusion h
  | ok ds =>
      rw [hd] at h
      dsimp only at h
      have h4 := PyResult.ok.inj h
      rw [routeContextDefsE_ok fs g route depth ds hd]
      exact h4

/-- Every completing `build_graph` run keeps the edge-endpoint
invariant: the exception-aware run from a fresh instance that returns a
state (rather than raising) satisfies the registered-endpoints
property. -/
theorem buildGraphE_edge_endpoints (fs : List String)
    (files : List FileFacts) (g' : DependencyGraph)
    (h : buildGraphE fs DependencyGraph.init files = PyResult.ok g') :
    ∀ e ∈ g'.graph.edges, (dictGet g'.symbol_table e.1).isSome ∧
      (dictGet g'.symbol_table e.2).isSome := by
  rw [← buildGraphE_ok fs DependencyGraph.init files g' h]
  exact (buildGraph_mirror_edgesOk fs DependencyGraph.init files rfl
    (fun e he => absurd he (List.not_mem_nil e))).2

/-- Closed instance of the endpoint invariant on a completing run. -/
theorem buildGraphE_edge_endpoints_witness :
    (dictGet cycleGraph.symbol_table "/w/c.js:A").isSome ∧
    (dictGet cycleGraph.symbol_table "/w/c.js:B").isSome :=
  buildGraphE_edge_endpoints []
    [⟨"/w/c.js", [cycleDefA, cycleDefB],
      [⟨"B", "/w/c.js", 2, none⟩, ⟨"A", "/w/c.js", 7, none⟩], []⟩]
    cycleGraph (by decide)
    ("/w/c.js:A", "/w/c.js:B") (by decide)

/-! ### C1 amended, with the per-file stores settled -/

theorem lastFile_eq_none (l : List FileFacts) (p : String)
    (h : ∀ f ∈ l, f.path ≠ p) : lastFile l p = none := by
  induction l with
  | nil => rfl
  | cons f rest ih =>
      unfold lastFile
      rw [ih (fun f1 hf1 => h f1 (List.mem_cons_of_mem _ hf1))]
      dsimp only
      rw [if_neg (h f (List.mem_cons_self _ _))]

theorem phase1_fc_get (l : List FileFacts) :
    ∀ (g : DependencyGraph) (p : String),
    dictGet (buildPhase1 g l).file_calls p =
      match lastFile l p with
      | some f => some f.calls
      | none => dictGet g.file_calls p := by
  induction l with
  | nil => intro g p; rfl
  | cons f rest ih =>
      intro g p
      have hstep : buildPhase1 g (f :: rest) =
          buildPhase1 (registerFile g f) rest := rfl
      rw [hstep, ih, lastFile_cons]
      cases lastFile rest p with
      | some f1 => rfl
      | none =>
          dsimp only
          rw [(registerFile_fields g f).2.1, dictGet_insert]
          by_cases hp : p = f.path
          · rw [if_pos hp, if_pos hp.symm]
          · rw [if_neg hp, if_neg (fun hh => hp hh.symm)]

theorem resolveCalls_allFields (fs : List String) (p : String)
    (cs : List FunctionCall) :
    ∀ g : DependencyGraph,
    (resolveCalls fs g p cs).file_functions = g.file_functions ∧
    (resolveCalls fs g p cs).file_calls = g.file_calls ∧
    (resolveCalls fs g p cs).file_imports = g.file_imports := by
  induction cs with
  | nil => intro g; exact ⟨rfl, rfl, rfl⟩
  | cons c cs ih =>
      intro g
      have hstep : resolveCalls fs g p (c :: cs) =
          resolveCalls fs (resolveCall fs g p c) p cs := rfl
      rw [hstep]
      obtain ⟨i1, i2, i3⟩ := ih (resolveCall fs g p c)
      obtain ⟨f1, f2, f3, f4⟩ := resolveCall_fields fs g p c
      exact ⟨i1.trans f2, i2.trans f4, i3.trans f3⟩

theorem phase2_fields (fs : List String) (g : DependencyGraph) :
    (buildPhase2 fs g).file_functions = g.file_functions ∧
    (buildPhase2 fs g).file_calls = g.file_calls ∧
    (buildPhase2 fs g).file_imports = g.file_imports := by
  unfold buildPhase2
  have H : ∀ (L : List (String × List FunctionCall)) (g0 : DependencyGraph),
      (L.foldl (fun g pc => resolveCalls fs g pc.1 pc.2) g0).file_functions =
        g0.file_functions ∧
      (L.foldl (fun g pc => resolveCalls fs g pc.1 pc.2) g0).file_calls =
        g0.file_calls ∧
      (L.foldl (fun g pc => resolveCalls fs g pc.1 pc.2) g0).file_imports =
        g0.file_imports := by
    intro L
    induction L with
    | nil => intro g0; exact ⟨rfl, rfl, rfl⟩
    | cons pc L ihL =>
        intro g0
        simp only [List.foldl]
        obtain ⟨i1, i2, i3⟩ := ihL (resolveCalls fs g0 pc.1 pc.2)
        obtain ⟨r1, r2, r3⟩ := resolveCalls_allFields fs pc.1 pc.2 g0
        exact ⟨i1.trans r1, i2.trans r2, i3.trans r3⟩
  exact H g.file_calls g

/-- C1 amended: `build_graph` never clears prior internal state — every
node key, edge, symbol-table key and per-file store key
(`_file_functions`, `_file_calls`, `_file_imports`) present before a
re-invocation is still present afterwards, and the per-file store
entries are overwritten only for file paths walked again: a path not
among the walked files keeps its exact previous entries. -/
theorem c1_rebuild_accumulates (fs : List String) (g : DependencyGraph)
    (files : List FileFacts) :
    (∀ n, (dictGet g.graph.nodes n).isSome →
        (dictGet (buildGraph fs g files).graph.nodes n).isSome) ∧
    (∀ e, e ∈ g.graph.edges → e ∈ (buildGraph fs g files).graph.edges) ∧
    (∀ k, (dictGet g.symbol_table k).isSome →
        (dictGet (buildGraph fs g files).symbol_table k).isSome) ∧
    (∀ k, (dictGet g.file_functions k).isSome →
        (dictGet (buildGraph fs g files).file_functions k).isSome) ∧
    (∀ k, (dictGet g.file_calls k).isSome →
        (dictGet (buildGraph fs g files).file_calls k).isSome) ∧
    (∀ k, (dictGet g.file_imports k).isSome →
        (dictGet (buildGraph fs g files).file_imports k).isSome) ∧
    (∀ p, (∀ f ∈ files, f.path ≠ p) →
        dictGet (buildGraph fs g files).file_functions p =
          dictGet g.file_functions p ∧
        dictGet (buildGraph fs g files).file_calls p =
          dictGet g.file_calls p ∧
        dictGet (buildGraph fs g files).file_imports p =
          dictGet g.file_imports p) := by
  obtain ⟨s1, s2, s3, s4, s5, s6⟩ := buildGraph_le fs g files
  refine ⟨s1, s2, s3, s4, s5, s6, ?_⟩
  intro p hp
  have hlf : lastFile files p = none := lastFile_eq_none files p hp
  obtain ⟨p1, p2, p3⟩ := phase2_fields fs (buildPhase1 g files)
  have hb : buildGraph fs g files = buildPhase2 fs (buildPhase1 g files) := rfl
  refine ⟨?_, ?_, ?_⟩
  · rw [hb, p1, phase1_ff_get, hlf]
  · rw [hb, p2, phase1_fc_get, hlf]
  · rw [hb, p3, phase1_fi_get, hlf]

/-- Witness for C1's amended theorem: the node registered by a first
build survives a second build with an empty fact set, and the per-file
stores of the untouched path are unchanged. -/
theorem c1_rebuild_accumulates_witness :
    (dictGet (buildGraph [] gWitness []).graph.nodes "/w/a.js:f").isSome ∧
    dictGet (buildGraph [] gWitness []).file_functions "/w/a.js" =
      dictGet gWitness.file_functions "/w/a.js" :=
  ⟨(c1_rebuild_accumulates [] gWitness []).1 "/w/a.js:f" (by decide),
   ((c1_rebuild_accumulates [] gWitness []).2.2.2.2.2.2 "/w/a.js"
      (fun f hf => absurd hf (List.not_mem_nil f))).1⟩

end LogicGate
